import Mathlib

/-!
Verification of the maze-solver search core (`src/maze_solver`).

The Python source is shallowly embedded:
* Python dicts become insertion-ordered association lists (`List (κ × β)`)
  with lookup `dget`, insertion-order-preserving assignment `dset`, and
  deletion `ddel`, mirroring CPython dict semantics (first occurrence wins,
  overwrite keeps the original slot, `del` removes the key).
* Python sets that the algorithms mutate are represented as duplicate-free
  insertion-ordered lists (`sadd`), keeping membership semantics.
* The `while` loops of the search algorithms become fuel-indexed structural
  recursion; fuel is exactly `config.max_steps` when that limit is set (the
  loop condition is `steps < max_steps`), and an arbitrary sufficiently large
  bound when `max_steps` is `None` (unlimited).
-/

section PyDict

variable {κ β : Type} [DecidableEq κ]

/-- Lookup in an insertion-ordered association list: the model of `d[k]` /
`d.get(k)` for a Python dict (first matching key wins; the lists we build
have unique keys). -/
def dget (m : List (κ × β)) (k : κ) : Option β :=
  match m with
  | [] => none
  | p :: rest => if p.1 = k then some p.2 else dget rest k

/-- Assignment `d[k] = v` on a Python dict: overwrite in place if the key is
present (keeping its insertion position), otherwise append at the end. -/
def dset (m : List (κ × β)) (k : κ) (v : β) : List (κ × β) :=
  match m with
  | [] => [(k, v)]
  | p :: rest => if p.1 = k then (k, v) :: rest else p :: dset rest k v

/-- Deletion `del d[k]`: remove the entries for `k`, keeping all other
entries in order. -/
def ddel (m : List (κ × β)) (k : κ) : List (κ × β) :=
  match m with
  | [] => []
  | p :: rest => if p.1 = k then ddel rest k else p :: ddel rest k

theorem dget_cons (p : κ × β) (rest : List (κ × β)) (k : κ) :
    dget (p :: rest) k = if p.1 = k then some p.2 else dget rest k := rfl

theorem dget_append (m n : List (κ × β)) (k : κ) :
    dget (m ++ n) k = match dget m k with
      | some v => some v
      | none => dget n k := by
  induction m with
  | nil => simp [dget]
  | cons p rest ih =>
    by_cases h : p.1 = k
    · rw [List.cons_append, dget_cons, if_pos h, dget_cons, if_pos h]
    · rw [List.cons_append, dget_cons, if_neg h, dget_cons, if_neg h, ih]

theorem dget_eq_none_iff (m : List (κ × β)) (k : κ) :
    dget m k = none ↔ k ∉ m.map Prod.fst := by
  induction m with
  | nil => simp [dget]
  | cons p rest ih =>
    by_cases h : p.1 = k
    · rw [dget_cons, if_pos h]
      simp [h]
    · rw [dget_cons, if_neg h, ih]
      simp [Ne.symm h]

theorem dget_isSome_iff (m : List (κ × β)) (k : κ) :
    (dget m k).isSome = true ↔ k ∈ m.map Prod.fst := by
  rw [Option.isSome_iff_ne_none]
  constructor
  · intro h
    by_contra hk
    exact h ((dget_eq_none_iff m k).mpr hk)
  · intro h he
    exact ((dget_eq_none_iff m k).mp he) h

theorem mem_of_dget_isSome {m : List (κ × β)} {k : κ}
    (h : (dget m k).isSome = true) : k ∈ m.map Prod.fst :=
  (dget_isSome_iff m k).mp h

theorem dget_isSome_of_mem {m : List (κ × β)} {k : κ}
    (h : k ∈ m.map Prod.fst) : (dget m k).isSome = true :=
  (dget_isSome_iff m k).mpr h

theorem dget_mem_snd {m : List (κ × β)} {k : κ} {v : β} (h : dget m k = some v) :
    v ∈ m.map Prod.snd := by
  induction m with
  | nil => simp [dget] at h
  | cons p rest ih =>
    by_cases hk : p.1 = k
    · rw [dget_cons, if_pos hk] at h
      cases h
      simp
    · rw [dget_cons, if_neg hk] at h
      simp [ih h]

theorem dget_mem_pair {m : List (κ × β)} {k : κ} {v : β} (h : dget m k = some v) :
    (k, v) ∈ m := by
  induction m with
  | nil => simp [dget] at h
  | cons p rest ih =>
    by_cases hk : p.1 = k
    · rw [dget_cons, if_pos hk] at h
      cases h
      have : p = (k, p.2) := by
        rw [← hk]
      rw [← this]
      exact List.mem_cons_self p rest
    · rw [dget_cons, if_neg hk] at h
      exact List.mem_cons_of_mem _ (ih h)

theorem dset_of_none {m : List (κ × β)} {k : κ} (v : β) (h : dget m k = none) :
    dset m k v = m ++ [(k, v)] := by
  induction m with
  | nil => rfl
  | cons p rest ih =>
    rw [dget_cons] at h
    by_cases hk : p.1 = k
    · rw [if_pos hk] at h
      cases h
    · rw [if_neg hk] at h
      show (if p.1 = k then (k, v) :: rest else p :: dset rest k v) = (p :: rest) ++ [(k, v)]
      rw [if_neg hk, ih h, List.cons_append]

theorem dget_dset_self (m : List (κ × β)) (k : κ) (v : β) :
    dget (dset m k v) k = some v := by
  induction m with
  | nil => simp [dset, dget]
  | cons p rest ih =>
    show dget (if p.1 = k then (k, v) :: rest else p :: dset rest k v) k = some v
    by_cases hk : p.1 = k
    · rw [if_pos hk, dget_cons, if_pos rfl]
    · rw [if_neg hk, dget_cons, if_neg hk]
      exact ih

theorem dget_dset_ne (m : List (κ × β)) {k k1 : κ} (v : β) (h : k1 ≠ k) :
    dget (dset m k v) k1 = dget m k1 := by
  induction m with
  | nil =>
    show dget [(k, v)] k1 = none
    rw [dget_cons, if_neg (show ¬ ((k, v).1 = k1) from fun he => h he.symm)]
    rfl
  | cons p rest ih =>
    show dget (if p.1 = k then (k, v) :: rest else p :: dset rest k v) k1 =
      dget (p :: rest) k1
    by_cases hk : p.1 = k
    · rw [if_pos hk, dget_cons, dget_cons]
      have hne : ¬ (k = k1) := fun he => h he.symm
      rw [if_neg hne, hk, if_neg (fun he : k = k1 => h he.symm)]
    · rw [if_neg hk, dget_cons, dget_cons, ih]

theorem map_fst_dset_mem {m : List (κ × β)} {k k1 : κ} {v : β} :
    k1 ∈ (dset m k v).map Prod.fst ↔ k1 ∈ m.map Prod.fst ∨ k1 = k := by
  induction m with
  | nil => simp [dset]
  | cons p rest ih =>
    show k1 ∈ (if p.1 = k then (k, v) :: rest else p :: dset rest k v).map Prod.fst ↔ _
    by_cases hk : p.1 = k
    · rw [if_pos hk]
      simp only [List.map_cons, List.mem_cons, hk]
      constructor
      · rintro (rfl | hm)
        · exact Or.inr rfl
        · exact Or.inl (Or.inr hm)
      · rintro ((rfl | hm) | rfl)
        · exact Or.inl rfl
        · exact Or.inr hm
        · exact Or.inl rfl
    · rw [if_neg hk]
      simp only [List.map_cons, List.mem_cons, ih]
      tauto

theorem nodup_map_fst_dset {m : List (κ × β)} {k : κ} {v : β}
    (h : (m.map Prod.fst).Nodup) : ((dset m k v).map Prod.fst).Nodup := by
  induction m with
  | nil => simp [dset]
  | cons p rest ih =>
    show ((if p.1 = k then (k, v) :: rest else p :: dset rest k v).map Prod.fst).Nodup
    simp only [List.map_cons, List.nodup_cons] at h
    by_cases hk : p.1 = k
    · rw [if_pos hk]
      simp only [List.map_cons, List.nodup_cons]
      refine ⟨?_, h.2⟩
      rw [← hk]
      exact h.1
    · rw [if_neg hk]
      simp only [List.map_cons, List.nodup_cons]
      refine ⟨?_, ih h.2⟩
      intro hmem
      rcases map_fst_dset_mem.mp hmem with hm | rfl
      · exact h.1 hm
      · exact hk rfl

theorem dget_ddel_self (m : List (κ × β)) (k : κ) : dget (ddel m k) k = none := by
  induction m with
  | nil => rfl
  | cons p rest ih =>
    show dget (if p.1 = k then ddel rest k else p :: ddel rest k) k = none
    by_cases hk : p.1 = k
    · rw [if_pos hk]
      exact ih
    · rw [if_neg hk, dget_cons, if_neg hk]
      exact ih

theorem dget_ddel_ne (m : List (κ × β)) {k k1 : κ} (h : k1 ≠ k) :
    dget (ddel m k) k1 = dget m k1 := by
  induction m with
  | nil => rfl
  | cons p rest ih =>
    show dget (if p.1 = k then ddel rest k else p :: ddel rest k) k1 = dget (p :: rest) k1
    by_cases hk : p.1 = k
    · have hne : ¬ (p.1 = k1) := by
        rw [hk]
        exact fun he => h he.symm
      rw [if_pos hk, dget_cons, if_neg hne, ih]
    · rw [if_neg hk, dget_cons, dget_cons]
      by_cases hk1 : p.1 = k1
      · rw [if_pos hk1, if_pos hk1]
      · rw [if_neg hk1, if_neg hk1, ih]

theorem mem_map_fst_ddel {m : List (κ × β)} {k k1 : κ}
    (h : k1 ∈ (ddel m k).map Prod.fst) : k1 ∈ m.map Prod.fst ∧ k1 ≠ k := by
  induction m with
  | nil => simp [ddel] at h
  | cons p rest ih =>
    have hshow : ddel (p :: rest) k = if p.1 = k then ddel rest k else p :: ddel rest k := rfl
    rw [hshow] at h
    by_cases hk : p.1 = k
    · rw [if_pos hk] at h
      obtain ⟨hm, hne⟩ := ih h
      exact ⟨by simp [hm], hne⟩
    · rw [if_neg hk] at h
      simp only [List.map_cons, List.mem_cons] at h
      rcases h with rfl | h
      · exact ⟨by simp, hk⟩
      · obtain ⟨hm, hne⟩ := ih h
        exact ⟨by simp [hm], hne⟩

end PyDict

section PySet

/-- `s.add(x)` on a Python set, represented as a duplicate-free
insertion-ordered list. -/
def sadd {α : Type} [DecidableEq α] (l : List α) (x : α) : List α :=
  if x ∈ l then l else l ++ [x]

theorem mem_sadd {α : Type} [DecidableEq α] {l : List α} {x a : α} :
    a ∈ sadd l x ↔ a ∈ l ∨ a = x := by
  by_cases h : x ∈ l
  · rw [sadd, if_pos h]
    constructor
    · exact fun ha => Or.inl ha
    · rintro (ha | rfl)
      · exact ha
      · exact h
  · rw [sadd, if_neg h]
    simp

theorem sadd_subset {α : Type} [DecidableEq α] (l : List α) (x : α) :
    l ⊆ sadd l x := by
  intro a ha
  exact mem_sadd.mpr (Or.inl ha)

theorem mem_sadd_self {α : Type} [DecidableEq α] (l : List α) (x : α) :
    x ∈ sadd l x := mem_sadd.mpr (Or.inr rfl)

end PySet

/-! ## Data model -/

/-- A maze cell `(row, col)`, compared by value (Python tuple of ints). -/
abbrev Cell := Int × Int

/-- A* / Greedy frontier entry `(f_value, g_value, node)`.  The source's A*
entries are exactly such triples; Greedy entries are `(f, node)` pairs, which
we embed as triples carrying the (order-irrelevant) g value as well. -/
abbrev AEntry := Int × Int × Cell

/-- The part of `MazeEnvironment` the search algorithms read: the adjacency
graph (`env.graph`, a dict from cell to ordered neighbor list, with
`.get(cell, [])` semantics), and the `start` / `end` cells. -/
structure MazeEnvironment where
  graph : Cell → List Cell
  start : Cell
  end_ : Cell

/-- `MazeEnvironment.get_step_cost`: uniform cost, always returns 1. -/
def MazeEnvironment.get_step_cost (_ : MazeEnvironment) (_ _ : Cell) : Int := 1

/-- `MazeEnvironment.calculate_manhattan_distance`. -/
def MazeEnvironment.calculate_manhattan_distance (_ : MazeEnvironment)
    (state goal : Cell) : Int :=
  |state.1 - goal.1| + |state.2 - goal.2|

/-- Step info recorded by `UninformedSearch._create_step_info` (the
string-keyed `queue_before`/`stack_before` aliases duplicate
`frontier_before`/`frontier_after` and are omitted). -/
structure UStepInfo where
  step : Nat
  expanded_node : Cell
  neighbors_added : List Cell
  frontier_before : List Cell
  frontier_after : List Cell
deriving DecidableEq

/-- Step info recorded by `InformedSearch._create_step_info`. -/
structure IStepInfo where
  step : Nat
  expanded_node : Cell
  expanded_node_f : Int
  expanded_node_g : Int
  expanded_node_h : Int
  neighbors_added : List AEntry
  frontier_before : List AEntry
  frontier_after : List AEntry
deriving DecidableEq

/-- One entry of `exploration_history`: the tuple
`(visited-or-closed snapshot, frontier snapshot, current_partial_path, step_info)`.
The partial path is an `Option` because path reconstruction is fuel-bounded
in this embedding (`none` would mean a cyclic parent map, which the
invariants rule out). -/
inductive HistEntry where
  | uninformed : List Cell → List Cell → Option (List Cell) → UStepInfo → HistEntry
  | informed : List Cell → List AEntry → Option (List Cell) → IStepInfo → HistEntry
deriving DecidableEq

/-- The `SearchResult` dataclass.  Field defaults mirror the dataclass
defaults, so `{}` is `SearchResult()`.  `node_h_value`, `node_g_value` and
`node_f_value` model the attributes dynamically attached by
`create_search_result(**kwargs)` for the informed algorithms (empty for the
uninformed ones).  `execution_time` is an integer-valued model of the
wall-clock float set by `run`. -/
structure SearchResult where
  path : Option (List Cell) := none
  visited : List Cell := []
  success : Bool := false
  steps : Nat := 0
  execution_time : Int := 0
  exploration_history : List HistEntry := []
  node_discovery : List (Cell × Nat) := []
  node_expansion : List (Cell × Nat) := []
  node_h_value : List (Cell × Int) := []
  node_g_value : List (Cell × Int) := []
  node_f_value : List (Cell × Int) := []
deriving DecidableEq

/-! ## Path reconstruction (`SearchAlgorithmBase._reconstruct_path`)

The Python code walks `parent` from `goal` with `while current != start`,
appending each parent, then reverses.  We accumulate the reversed list
directly and bound the walk by a fuel; `parent` holds only the non-`None`
entries (the initial `{start: None}` entry is modelled by `start` being
absent), so `parent.length` lookups always suffice for an acyclic map. -/

def reconstructAux (parent : List (Cell × Cell)) (start : Cell) :
    Nat → Cell → List Cell → Option (List Cell)
  | 0, current, acc => if current = start then some acc else none
  | Nat.succ fuel, current, acc =>
    if current = start then some acc
    else
      match dget parent current with
      | none => none
      | some p => reconstructAux parent start fuel p (p :: acc)

/-- `_reconstruct_path(parent, start, goal)`: `some` of the start-to-goal
path; `none` only if the walk would not terminate (never the case for the
parent maps the algorithms build). -/
def reconstruct_path (parent : List (Cell × Cell)) (start goal : Cell) :
    Option (List Cell) :=
  reconstructAux parent start parent.length goal [goal]

/-- The chains the reconstruction walk traverses: `ParentPath parent start c l`
says `l` is the cell sequence from `start` to `c` obtained by following
`parent` pointers backwards from `c`. -/
inductive ParentPath (parent : List (Cell × Cell)) (start : Cell) :
    Cell → List Cell → Prop where
  | base : ParentPath parent start start [start]
  | step {p c : Cell} {l : List Cell} : ParentPath parent start p l →
      dget parent c = some p → c ≠ start → ParentPath parent start c (l ++ [c])

theorem ParentPath.ne_nil {parent : List (Cell × Cell)} {start c : Cell}
    {l : List Cell} (h : ParentPath parent start c l) : l ≠ [] := by
  cases h with
  | base => simp
  | step h1 h2 h3 => simp

theorem ParentPath.head {parent : List (Cell × Cell)} {start c : Cell}
    {l : List Cell} (h : ParentPath parent start c l) : l.head? = some start := by
  induction h with
  | base => rfl
  | step h1 h2 h3 ih =>
    rename_i p c1 l1
    rw [List.head?_append_of_ne_nil _ (ParentPath.ne_nil h1)]
    exact ih

theorem ParentPath.getLast {parent : List (Cell × Cell)} {start c : Cell}
    {l : List Cell} (h : ParentPath parent start c l) : l.getLast? = some c := by
  cases h with
  | base => rfl
  | step h1 h2 h3 => simp

/-- `reconstructAux` follows any `ParentPath` chain given enough fuel. -/
theorem reconstructAux_eq {parent : List (Cell × Cell)} {start : Cell} :
    ∀ {c : Cell} {l : List Cell}, ParentPath parent start c l →
    ∀ (fuel : Nat) (acc : List Cell), l.length ≤ fuel + 1 →
    reconstructAux parent start fuel c (c :: acc) = some (l ++ acc) := by
  intro c l h
  induction h with
  | base =>
    intro fuel acc hlen
    cases fuel with
    | zero => simp [reconstructAux]
    | succ n => simp [reconstructAux]
  | step h1 h2 h3 ih =>
    rename_i p c1 l1
    intro fuel acc hlen
    have hl1 : 1 ≤ l1.length := by
      cases hl : l1 with
      | nil => exact absurd hl (ParentPath.ne_nil h1)
      | cons a as => simp
    rw [List.length_append, List.length_singleton] at hlen
    obtain ⟨f, rfl⟩ : ∃ f, fuel = f + 1 := by
      cases fuel with
      | zero => omega
      | succ n => exact ⟨n, rfl⟩
    show (if c1 = start then some (c1 :: acc)
      else match dget parent c1 with
        | none => none
        | some p => reconstructAux parent start f p (p :: (c1 :: acc))) = _
    rw [if_neg h3, h2]
    show reconstructAux parent start f p (p :: (c1 :: acc)) = some (l1 ++ [c1] ++ acc)
    rw [ih f (c1 :: acc) (by omega), List.append_assoc, List.singleton_append]


/-- Well-formedness of a parent map over a domain `dom` of settled cells,
with a rank function that strictly decreases along parent pointers: exactly
what both search loops maintain (rank = discovery step for BFS/DFS, rank =
expansion step for Greedy/A*). -/
structure ParentMapOK (env : MazeEnvironment) (parent : List (Cell × Cell))
    (start : Cell) (dom : List Cell) (rank : Cell → Nat) : Prop where
  start_none : dget parent start = none
  complete : ∀ c ∈ dom, c = start ∨ (dget parent c).isSome = true
  parent_dom : ∀ c p, dget parent c = some p → p ∈ dom
  edge : ∀ c p, dget parent c = some p → c ∈ env.graph p
  rank_lt : ∀ c p, c ∈ dom → dget parent c = some p → rank p < rank c

theorem parent_chain_exists {env : MazeEnvironment} {parent : List (Cell × Cell)}
    {start : Cell} {dom : List Cell} {rank : Cell → Nat}
    (ok : ParentMapOK env parent start dom rank) :
    ∀ (n : Nat) (c : Cell), rank c = n → c ∈ dom →
    ∃ l, ParentPath parent start c l ∧ l.Nodup ∧
      (∀ x ∈ l, (x = start ∨ x ∈ parent.map Prod.fst) ∧ rank x ≤ rank c) ∧
      List.Chain' (fun a b => b ∈ env.graph a) l := by
  intro n
  induction n using Nat.strong_induction_on with
  | _ n ih =>
    intro c hrank hdom
    by_cases hcs : c = start
    · refine ⟨[c], ?_, by simp, ?_, by simp⟩
      · rw [hcs]
        exact ParentPath.base
      · intro x hx
        rw [List.mem_singleton] at hx
        subst hx
        exact ⟨Or.inl hcs, le_refl _⟩
    · rcases ok.complete c hdom with rfl | hsome
      · exact absurd rfl hcs
      · obtain ⟨p, hp⟩ := Option.isSome_iff_exists.mp hsome
        have hpdom : p ∈ dom := ok.parent_dom c p hp
        have hplt : rank p < rank c := ok.rank_lt c p hdom hp
        subst hrank
        obtain ⟨l1, hpath, hnd, hbound, hchain⟩ := ih (rank p) hplt p rfl hpdom
        refine ⟨l1 ++ [c], ParentPath.step hpath hp hcs, ?_, ?_, ?_⟩
        · rw [List.nodup_append]
          refine ⟨hnd, by simp, ?_⟩
          intro x hx hy
          rw [List.mem_singleton] at hy
          subst hy
          have h1 := (hbound x hx).2
          omega
        · intro x hx
          rcases List.mem_append.mp hx with hx1 | hx1
          · obtain ⟨hk, hr⟩ := hbound x hx1
            exact ⟨hk, le_trans hr (le_of_lt hplt)⟩
          · rw [List.mem_singleton] at hx1
            subst hx1
            refine ⟨Or.inr (mem_of_dget_isSome ?_), le_refl _⟩
            rw [hp]
            rfl
        · rw [List.chain'_append]
          refine ⟨hchain, by simp, ?_⟩
          intro x hx y hy
          rw [ParentPath.getLast hpath] at hx
          cases hx
          rw [List.head?_cons] at hy
          cases hy
          exact ok.edge c p hp

/-- Under `ParentMapOK`, `reconstruct_path` succeeds on every domain cell and
returns a duplicate-free start-to-goal chain of graph edges. -/
theorem reconstruct_ok {env : MazeEnvironment} {parent : List (Cell × Cell)}
    {start : Cell} {dom : List Cell} {rank : Cell → Nat}
    (ok : ParentMapOK env parent start dom rank) {goal : Cell} (hdom : goal ∈ dom) :
    ∃ l, reconstruct_path parent start goal = some l ∧
      l.head? = some start ∧ l.getLast? = some goal ∧ l.Nodup ∧
      List.Chain' (fun a b => b ∈ env.graph a) l := by
  obtain ⟨l, hpath, hnd, hbound, hchain⟩ :=
    parent_chain_exists ok (rank goal) goal rfl hdom
  have hstart_notin : start ∉ parent.map Prod.fst := by
    intro hmem
    have := dget_isSome_of_mem hmem
    rw [ok.start_none] at this
    cases this
  have hlen : l.length ≤ parent.length + 1 := by
    classical
    have hsub : l.toFinset ⊆ insert start (parent.map Prod.fst).toFinset := by
      intro x hx
      rw [List.mem_toFinset] at hx
      rcases (hbound x hx).1 with rfl | hk
      · exact Finset.mem_insert_self _ _
      · exact Finset.mem_insert_of_mem (List.mem_toFinset.mpr hk)
    have h1 : l.length = l.toFinset.card := (List.toFinset_card_of_nodup hnd).symm
    have h2 : l.toFinset.card ≤ (insert start (parent.map Prod.fst).toFinset).card :=
      Finset.card_le_card hsub
    have h3 : (insert start (parent.map Prod.fst).toFinset).card ≤
        (parent.map Prod.fst).toFinset.card + 1 := Finset.card_insert_le _ _
    have h4 : (parent.map Prod.fst).toFinset.card ≤ (parent.map Prod.fst).length :=
      (parent.map Prod.fst).toFinset_card_le
    rw [List.length_map] at h4
    omega
  have haux := reconstructAux_eq hpath parent.length [] (by omega)
  rw [List.append_nil] at haux
  have hlast := ParentPath.getLast hpath
  refine ⟨l, ?_, ParentPath.head hpath, hlast, hnd, hchain⟩
  rw [reconstruct_path, ← haux]

/-! ## The uninformed search loop (`UninformedSearch.search`, shared by
`BreadthFirstSearch` and `DepthFirstSearch`) -/

/-- The loop state of `UninformedSearch.search` at the top of an iteration.
`visited` mirrors the Python `visited` set as an insertion-ordered list
(its contents always equal `visited_order`).  The four `_log` fields are
ghost instrumentation recording, in order, every frontier enqueue
(including the initial one), every `parent[...] = ...` assignment
(including the initial `{start: None}`), and every write to
`node_discovery` / `node_expansion`; they do not influence the computation
and exist to state trace properties (each event happens at most once per
cell). -/
structure UState where
  frontier : List Cell
  visited : List Cell
  visited_order : List Cell
  parent : List (Cell × Cell)
  exploration_history : List HistEntry
  node_discovery : List (Cell × Nat)
  node_expansion : List (Cell × Nat)
  steps : Nat
  enqueue_log : List Cell
  parent_log : List Cell
  discovery_log : List Cell
  expansion_log : List Cell

/-- The strategy hooks of the uninformed algorithms: `_get_next_node`
removes and returns one element of the frontier (`None` on an empty
frontier).  The two proof fields pin down that it is a removal. -/
structure UninformedStrategy where
  get_next_node : List Cell → Option (Cell × List Cell)
  get_next_none : ∀ l, get_next_node l = none ↔ l = []
  get_next_perm : ∀ l c r, get_next_node l = some (c, r) → l.Perm (c :: r)

/-- `BreadthFirstSearch._get_next_node`: FIFO `popleft`. -/
def BreadthFirstSearch.get_next_node : List Cell → Option (Cell × List Cell)
  | [] => none
  | c :: r => some (c, r)

def bfsStrategy : UninformedStrategy where
  get_next_node := BreadthFirstSearch.get_next_node
  get_next_none := by
    intro l
    cases l with
    | nil => simp [BreadthFirstSearch.get_next_node]
    | cons c r => simp [BreadthFirstSearch.get_next_node]
  get_next_perm := by
    intro l c r h
    cases l with
    | nil => cases h
    | cons c1 r1 =>
      simp only [BreadthFirstSearch.get_next_node, Option.some.injEq, Prod.mk.injEq] at h
      rw [h.1, h.2]

/-- `DepthFirstSearch._get_next_node`: LIFO `pop` from the end. -/
def DepthFirstSearch.get_next_node (l : List Cell) : Option (Cell × List Cell) :=
  match l.getLast? with
  | none => none
  | some c => some (c, l.dropLast)

def dfsStrategy : UninformedStrategy where
  get_next_node := DepthFirstSearch.get_next_node
  get_next_none := by
    intro l
    cases hl : l.getLast? with
    | none =>
      simp only [DepthFirstSearch.get_next_node, hl]
      simp only [List.getLast?_eq_none_iff] at hl
      simp [hl]
    | some c =>
      simp only [DepthFirstSearch.get_next_node, hl]
      constructor
      · intro h
        cases h
      · intro h
        subst h
        cases hl
  get_next_perm := by
    intro l c r h
    cases hl : l.getLast? with
    | none =>
      rw [DepthFirstSearch.get_next_node, hl] at h
      cases h
    | some c1 =>
      rw [DepthFirstSearch.get_next_node, hl] at h
      simp only [Option.some.injEq, Prod.mk.injEq] at h
      obtain ⟨rfl, rfl⟩ := h
      have hne : l ≠ [] := by
        intro he
        subst he
        cases hl
      have hlast : l.getLast hne = c1 := by
        rw [List.getLast?_eq_getLast l hne, Option.some.injEq] at hl
        exact hl
      have hdec : l.dropLast ++ [c1] = l := by
        rw [← hlast]
        exact List.dropLast_append_getLast hne
      have hperm := List.perm_append_singleton c1 l.dropLast
      rw [hdec] at hperm
      exact hperm

/-- Loop-state initialization of `UninformedSearch.search` (lines 42-50):
`frontier = [start]`, `visited = {start}`, `visited_order = [start]`,
`parent = {start: None}` (modelled by `start` having no entry),
`node_discovery = {start: 0}`, `node_expansion = {}`, `steps = 0`. -/
def uInit (start : Cell) : UState where
  frontier := [start]
  visited := [start]
  visited_order := [start]
  parent := []
  exploration_history := []
  node_discovery := [(start, 0)]
  node_expansion := []
  steps := 0
  enqueue_log := [start]
  parent_log := [start]
  discovery_log := [start]
  expansion_log := []

/-- The neighbor-processing body (lines 82-89): `if neighbor not in visited`,
mark visited, set the parent pointer, enqueue, record discovery.  The second
component of the accumulator is `neighbors_added`. -/
def uProcessNeighbor (current : Cell) (acc : UState × List Cell)
    (neighbor : Cell) : UState × List Cell :=
  let s := acc.1
  if neighbor ∈ s.visited then acc
  else
    ({ s with
        visited := s.visited ++ [neighbor]
        visited_order := s.visited_order ++ [neighbor]
        parent := dset s.parent neighbor current
        frontier := s.frontier ++ [neighbor]
        node_discovery := dset s.node_discovery neighbor s.steps
        enqueue_log := s.enqueue_log ++ [neighbor]
        parent_log := s.parent_log ++ [neighbor]
        discovery_log := s.discovery_log ++ [neighbor] },
      acc.2 ++ [neighbor])

/-- The success result (lines 68-78). -/
def uSuccessResult (s : UState) (start goal : Cell) : SearchResult where
  path := reconstruct_path s.parent start goal
  visited := s.visited_order
  success := true
  steps := s.steps
  exploration_history := s.exploration_history
  node_discovery := s.node_discovery
  node_expansion := s.node_expansion

/-- The no-path-found result (lines 117-126). -/
def uFailureResult (s : UState) : SearchResult where
  path := none
  visited := s.visited_order
  success := false
  steps := s.steps
  exploration_history := s.exploration_history
  node_discovery := s.node_discovery
  node_expansion := s.node_expansion

/-- Outcome of one loop iteration: either the function returns, or the loop
continues with a new state. -/
inductive StepOut (σ : Type) where
  | done : SearchResult → StepOut σ
  | next : σ → StepOut σ

/-- Lines 54-65 of the loop body: increment the step counter, remove
`current` from the frontier, record `node_expansion[current] = steps`. -/
def uExpand (s : UState) (current : Cell) (rest : List Cell) : UState :=
  { s with
      steps := s.steps + 1
      frontier := rest
      node_expansion := dset s.node_expansion current (s.steps + 1)
      expansion_log := s.expansion_log ++ [current] }

/-- Lines 91-115: append the exploration-history entry for this step. -/
def uRecord (start current : Cell) (frontier_before added : List Cell)
    (s3 : UState) : UState :=
  { s3 with
      exploration_history := s3.exploration_history ++
        [HistEntry.uninformed s3.visited s3.frontier
          (if current = start then some [start]
           else reconstruct_path s3.parent start current)
          { step := s3.steps
            expanded_node := current
            neighbors_added := added
            frontier_before := frontier_before
            frontier_after := s3.frontier }] }

/-- One iteration of the `while` loop of `UninformedSearch.search` (the
`.done` case on an empty frontier corresponds to the loop condition
failing and the code falling through to the failure return). -/
def uStep (us : UninformedStrategy) (env : MazeEnvironment) (showExp : Bool)
    (start goal : Cell) (s : UState) : StepOut UState :=
  match us.get_next_node s.frontier with
  | none => StepOut.done (uFailureResult s)
  | some (current, rest) =>
    let s2 := uExpand s current rest
    if current = goal then StepOut.done (uSuccessResult s2 start goal)
    else
      let fold := (env.graph current).foldl (uProcessNeighbor current) (s2, [])
      if showExp then StepOut.next (uRecord start current s.frontier fold.2 fold.1)
      else StepOut.next fold.1

/-- The fuel-indexed loop of `UninformedSearch.search`: `fuel` is the number
of loop iterations still allowed (`max_steps - steps`). -/
def uLoop (us : UninformedStrategy) (env : MazeEnvironment) (showExp : Bool)
    (start goal : Cell) : Nat → UState → SearchResult
  | 0, s => uFailureResult s
  | Nat.succ n, s =>
    match uStep us env showExp start goal s with
    | StepOut.done r => r
    | StepOut.next s1 => uLoop us env showExp start goal n s1

/-- `UninformedSearch.search(start, goal)`.  `max_steps` is the configured
`config.max_steps` when set; for `max_steps = None` (unbounded) the loop is
the same function run with any sufficiently large fuel. -/
def uninformed_search (us : UninformedStrategy) (env : MazeEnvironment)
    (showExp : Bool) (start goal : Cell) (max_steps : Nat) : SearchResult :=
  uLoop us env showExp start goal max_steps (uInit start)

/-- `BreadthFirstSearch.search`. -/
def BreadthFirstSearch.search (env : MazeEnvironment) (showExp : Bool)
    (start goal : Cell) (max_steps : Nat) : SearchResult :=
  uninformed_search bfsStrategy env showExp start goal max_steps

/-- `DepthFirstSearch.search`. -/
def DepthFirstSearch.search (env : MazeEnvironment) (showExp : Bool)
    (start goal : Cell) (max_steps : Nat) : SearchResult :=
  uninformed_search dfsStrategy env showExp start goal max_steps

/-- The states at the top of each loop iteration: `uIter n` is the state
after `n` completed iterations (`none` once the function has returned). -/
def uIter (us : UninformedStrategy) (env : MazeEnvironment) (showExp : Bool)
    (start goal : Cell) : Nat → UState → Option UState
  | 0, s => some s
  | Nat.succ n, s =>
    match uStep us env showExp start goal s with
    | StepOut.done _ => none
    | StepOut.next s1 => uIter us env showExp start goal n s1

/-! ## Invariants of the uninformed loop -/

theorem nodup_append_singleton {α : Type} {l : List α} {a : α}
    (h : l.Nodup) (ha : a ∉ l) : (l ++ [a]).Nodup := by
  rw [List.nodup_append]
  refine ⟨h, by simp, ?_⟩
  intro x hx hx1
  rw [List.mem_singleton] at hx1
  subst hx1
  exact ha hx

theorem pairwise_lt_append_singleton {l : List Nat} {a : Nat}
    (h : l.Pairwise (· < ·)) (ha : ∀ x ∈ l, x < a) :
    (l ++ [a]).Pairwise (· < ·) := by
  rw [List.pairwise_append]
  refine ⟨h, by simp, ?_⟩
  intro x hx y hy
  rw [List.mem_singleton] at hy
  subst hy
  exact ha x hx

/-- The invariant maintained by `UninformedSearch.search` at the top of
every loop iteration (and re-established mid-iteration by the neighbor
fold). -/
structure UInv (env : MazeEnvironment) (start : Cell) (s : UState) : Prop where
  start_visited : start ∈ s.visited
  parent_start : dget s.parent start = none
  parent_keys_visited : ∀ c, (dget s.parent c).isSome = true → c ∈ s.visited
  parent_props : ∀ c p, dget s.parent c = some p →
    p ∈ s.visited ∧ c ∈ env.graph p ∧ c ≠ start
  visited_parent : ∀ c ∈ s.visited, c = start ∨ (dget s.parent c).isSome = true
  disc_dom : ∀ c, (dget s.node_discovery c).isSome = true ↔ c ∈ s.visited
  disc_start : dget s.node_discovery start = some 0
  disc_le : ∀ d ∈ s.node_discovery.map Prod.snd, d ≤ s.steps
  parent_rank : ∀ c p dc dp, dget s.parent c = some p →
    dget s.node_discovery c = some dc → dget s.node_discovery p = some dp → dp < dc
  frontier_nodup : s.frontier.Nodup
  frontier_visited : s.frontier ⊆ s.visited
  frontier_unexpanded : ∀ c ∈ s.frontier, dget s.node_expansion c = none
  exp_dom_visited : ∀ c, (dget s.node_expansion c).isSome = true → c ∈ s.visited
  exp_le : ∀ e ∈ s.node_expansion.map Prod.snd, e ≤ s.steps
  exp_pairwise : (s.node_expansion.map Prod.snd).Pairwise (· < ·)
  disc_lt_exp : ∀ c e, dget s.node_expansion c = some e →
    ∃ d, dget s.node_discovery c = some d ∧ d < e
  visited_eq : s.visited = s.visited_order
  enqueue_nodup : s.enqueue_log.Nodup
  enqueue_sub : s.enqueue_log ⊆ s.visited
  parentlog_nodup : s.parent_log.Nodup
  parentlog_sub : s.parent_log ⊆ s.visited
  disclog_nodup : s.discovery_log.Nodup
  disclog_sub : s.discovery_log ⊆ s.visited
  explog_nodup : s.expansion_log.Nodup
  explog_sub : ∀ c ∈ s.expansion_log, (dget s.node_expansion c).isSome = true

theorem uInit_inv (env : MazeEnvironment) (start : Cell) :
    UInv env start (uInit start) where
  start_visited := by simp [uInit]
  parent_start := by simp [uInit, dget]
  parent_keys_visited := by
    intro c h
    simp [uInit, dget] at h
  parent_props := by
    intro c p h
    simp [uInit, dget] at h
  visited_parent := by
    intro c hc
    simp only [uInit, List.mem_singleton] at hc
    exact Or.inl hc
  disc_dom := by
    intro c
    simp only [uInit, dget_cons]
    by_cases h : start = c
    · subst h
      simp [dget]
    · rw [if_neg h]
      simp [dget, Ne.symm h]
  disc_start := by simp [uInit, dget]
  disc_le := by
    intro d hd
    simp only [uInit, List.map_cons, List.map_nil, List.mem_singleton] at hd
    simp [uInit, hd]
  parent_rank := by
    intro c p dc dp h
    simp [uInit, dget] at h
  frontier_nodup := by simp [uInit]
  frontier_visited := by simp [uInit]
  frontier_unexpanded := by
    intro c hc
    simp [uInit, dget]
  exp_dom_visited := by
    intro c h
    simp [uInit, dget] at h
  exp_le := by
    intro e he
    simp [uInit] at he
  exp_pairwise := by simp [uInit]
  disc_lt_exp := by
    intro c e h
    simp [uInit, dget] at h
  visited_eq := rfl
  enqueue_nodup := by simp [uInit]
  enqueue_sub := by simp [uInit]
  parentlog_nodup := by simp [uInit]
  parentlog_sub := by simp [uInit]
  disclog_nodup := by simp [uInit]
  disclog_sub := by simp [uInit]
  explog_nodup := by simp [uInit]
  explog_sub := by
    intro c hc
    simp [uInit] at hc

/-- What holds of the state throughout the neighbor-processing fold of one
iteration: the invariant, plus the facts about the just-expanded `current`
needed to re-establish it after each neighbor update. -/
def UFoldFacts (env : MazeEnvironment) (start current : Cell) (s : UState) : Prop :=
  UInv env start s ∧ current ∈ s.visited ∧
    ∃ d, dget s.node_discovery current = some d ∧ d < s.steps

theorem uProcessNeighbor_foldfacts {env : MazeEnvironment} {start current : Cell}
    {acc : UState × List Cell} {neighbor : Cell}
    (h : UFoldFacts env start current acc.1) (hedge : neighbor ∈ env.graph current) :
    UFoldFacts env start current (uProcessNeighbor current acc neighbor).1 := by
  obtain ⟨hinv, hcur, d, hd, hdlt⟩ := h
  by_cases hn : neighbor ∈ acc.1.visited
  · simpa only [uProcessNeighbor, if_pos hn] using ⟨hinv, hcur, d, hd, hdlt⟩
  · have hne_start : neighbor ≠ start := fun he => hn (he ▸ hinv.start_visited)
    have hcur_ne : current ≠ neighbor := fun he => hn (he ▸ hcur)
    have hdisc_none : dget acc.1.node_discovery neighbor = none := by
      cases hd2 : dget acc.1.node_discovery neighbor with
      | none => rfl
      | some v =>
        exact absurd ((hinv.disc_dom neighbor).mp (by rw [hd2]; rfl)) hn
    have hfr_notmem : neighbor ∉ acc.1.frontier :=
      fun hmem => hn (hinv.frontier_visited hmem)
    simp only [uProcessNeighbor, if_neg hn]
    refine ⟨?_, ?_, ?_⟩
    · exact {
        start_visited := List.mem_append.mpr (Or.inl hinv.start_visited)
        parent_start := by
          rw [dget_dset_ne _ _ (Ne.symm hne_start)]
          exact hinv.parent_start
        parent_keys_visited := by
          intro c hc
          by_cases hcn : c = neighbor
          · subst hcn
            simp
          · rw [dget_dset_ne _ _ hcn] at hc
            exact List.mem_append.mpr (Or.inl (hinv.parent_keys_visited c hc))
        parent_props := by
          intro c p hp
          by_cases hcn : c = neighbor
          · subst hcn
            rw [dget_dset_self] at hp
            cases hp
            exact ⟨List.mem_append.mpr (Or.inl hcur), hedge, hne_start⟩
          · rw [dget_dset_ne _ _ hcn] at hp
            obtain ⟨h1, h2, h3⟩ := hinv.parent_props c p hp
            exact ⟨List.mem_append.mpr (Or.inl h1), h2, h3⟩
        visited_parent := by
          intro c hc
          rcases List.mem_append.mp hc with hc1 | hc1
          · rcases hinv.visited_parent c hc1 with rfl | hs
            · exact Or.inl rfl
            · refine Or.inr ?_
              have hcn : c ≠ neighbor := fun he => hn (he ▸ hc1)
              rw [dget_dset_ne _ _ hcn]
              exact hs
          · rw [List.mem_singleton] at hc1
            subst hc1
            refine Or.inr ?_
            rw [dget_dset_self]
            rfl
        disc_dom := by
          intro c
          by_cases hcn : c = neighbor
          · subst hcn
            rw [dget_dset_self]
            simp
          · rw [dget_dset_ne _ _ hcn, hinv.disc_dom c]
            simp [hcn]
        disc_start := by
          rw [dget_dset_ne _ _ (Ne.symm hne_start)]
          exact hinv.disc_start
        disc_le := by
          intro d1 hd1
          rw [dset_of_none _ hdisc_none, List.map_append] at hd1
          rcases List.mem_append.mp hd1 with hd2 | hd2
          · exact hinv.disc_le d1 hd2
          · rw [List.map_singleton, List.mem_singleton] at hd2
            subst hd2
            exact le_refl _
        parent_rank := by
          intro c p dc dp hp hdc hdp
          by_cases hcn : c = neighbor
          · subst hcn
            rw [dget_dset_self] at hp
            cases hp
            rw [dget_dset_self] at hdc
            cases hdc
            rw [dget_dset_ne _ _ hcur_ne] at hdp
            rw [hd] at hdp
            cases hdp
            exact hdlt
          · rw [dget_dset_ne _ _ hcn] at hp
            have hpn : p ≠ neighbor :=
              fun he => hn (he ▸ (hinv.parent_props c p hp).1)
            rw [dget_dset_ne _ _ hcn] at hdc
            rw [dget_dset_ne _ _ hpn] at hdp
            exact hinv.parent_rank c p dc dp hp hdc hdp
        frontier_nodup := nodup_append_singleton hinv.frontier_nodup hfr_notmem
        frontier_visited := by
          intro c hc
          rcases List.mem_append.mp hc with hc1 | hc1
          · exact List.mem_append.mpr (Or.inl (hinv.frontier_visited hc1))
          · exact List.mem_append.mpr (Or.inr hc1)
        frontier_unexpanded := by
          intro c hc
          rcases List.mem_append.mp hc with hc1 | hc1
          · exact hinv.frontier_unexpanded c hc1
          · rw [List.mem_singleton] at hc1
            subst hc1
            cases he : dget acc.1.node_expansion c with
            | none => rfl
            | some v => exact absurd (hinv.exp_dom_visited c (by rw [he]; rfl)) hn
        exp_dom_visited := by
          intro c hc
          exact List.mem_append.mpr (Or.inl (hinv.exp_dom_visited c hc))
        exp_le := hinv.exp_le
        exp_pairwise := hinv.exp_pairwise
        disc_lt_exp := by
          intro c e he
          have hcv : c ∈ acc.1.visited := hinv.exp_dom_visited c (by rw [he]; rfl)
          have hcn : c ≠ neighbor := fun h1 => hn (h1 ▸ hcv)
          rw [dget_dset_ne _ _ hcn]
          exact hinv.disc_lt_exp c e he
        visited_eq := by rw [hinv.visited_eq]
        enqueue_nodup := nodup_append_singleton hinv.enqueue_nodup
          (fun hmem => hn (hinv.enqueue_sub hmem))
        enqueue_sub := by
          intro c hc
          rcases List.mem_append.mp hc with hc1 | hc1
          · exact List.mem_append.mpr (Or.inl (hinv.enqueue_sub hc1))
          · exact List.mem_append.mpr (Or.inr hc1)
        parentlog_nodup := nodup_append_singleton hinv.parentlog_nodup
          (fun hmem => hn (hinv.parentlog_sub hmem))
        parentlog_sub := by
          intro c hc
          rcases List.mem_append.mp hc with hc1 | hc1
          · exact List.mem_append.mpr (Or.inl (hinv.parentlog_sub hc1))
          · exact List.mem_append.mpr (Or.inr hc1)
        disclog_nodup := nodup_append_singleton hinv.disclog_nodup
          (fun hmem => hn (hinv.disclog_sub hmem))
        disclog_sub := by
          intro c hc
          rcases List.mem_append.mp hc with hc1 | hc1
          · exact List.mem_append.mpr (Or.inl (hinv.disclog_sub hc1))
          · exact List.mem_append.mpr (Or.inr hc1)
        explog_nodup := hinv.explog_nodup
        explog_sub := hinv.explog_sub }
    · exact List.mem_append.mpr (Or.inl hcur)
    · refine ⟨d, ?_, hdlt⟩
      rw [dget_dset_ne _ _ hcur_ne]
      exact hd

theorem uFold_foldfacts {env : MazeEnvironment} {start current : Cell}
    (ns : List Cell) (hsub : ∀ n ∈ ns, n ∈ env.graph current) :
    ∀ acc : UState × List Cell, UFoldFacts env start current acc.1 →
    UFoldFacts env start current ((ns.foldl (uProcessNeighbor current) acc)).1 := by
  induction ns with
  | nil =>
    intro acc h
    exact h
  | cons n ns ih =>
    intro acc h
    rw [List.foldl_cons]
    exact ih (fun m hm => hsub m (List.mem_cons_of_mem n hm)) _
      (uProcessNeighbor_foldfacts h (hsub n (List.mem_cons_self n ns)))

theorem uFold_steps (current : Cell) (ns : List Cell) :
    ∀ acc : UState × List Cell,
    ((ns.foldl (uProcessNeighbor current) acc).1).steps = acc.1.steps := by
  induction ns with
  | nil => intro acc; rfl
  | cons n ns ih =>
    intro acc
    rw [List.foldl_cons, ih]
    by_cases hn : n ∈ acc.1.visited
    · rw [uProcessNeighbor, if_pos hn]
    · rw [uProcessNeighbor, if_neg hn]

/-- After the pop / step-increment / expansion-mark part of an iteration,
the fold facts hold. -/
theorem uExpand_foldfacts {us : UninformedStrategy} {env : MazeEnvironment}
    {start : Cell} {s : UState} {current : Cell} {rest : List Cell}
    (hinv : UInv env start s)
    (hpop : us.get_next_node s.frontier = some (current, rest)) :
    UFoldFacts env start current (uExpand s current rest) := by
  have hperm : s.frontier.Perm (current :: rest) := us.get_next_perm _ _ _ hpop
  have hcur_f : current ∈ s.frontier :=
    hperm.mem_iff.mpr (List.mem_cons_self current rest)
  have hcur_vis : current ∈ s.visited := hinv.frontier_visited hcur_f
  have hnodup_cr : (current :: rest).Nodup :=
    (List.Perm.nodup_iff hperm).mp hinv.frontier_nodup
  have hcnr : current ∉ rest := (List.nodup_cons.mp hnodup_cr).1
  have hrest_nodup : rest.Nodup := (List.nodup_cons.mp hnodup_cr).2
  have hrest_sub : rest ⊆ s.frontier := by
    intro c hc
    exact hperm.mem_iff.mpr (List.mem_cons_of_mem current hc)
  have hexp_none : dget s.node_expansion current = none :=
    hinv.frontier_unexpanded current hcur_f
  have hexp_app : dset s.node_expansion current (s.steps + 1) =
      s.node_expansion ++ [(current, s.steps + 1)] := dset_of_none _ hexp_none
  have hdisc_cur : ∃ d, dget s.node_discovery current = some d ∧ d ≤ s.steps := by
    obtain ⟨d, hd⟩ := Option.isSome_iff_exists.mp ((hinv.disc_dom current).mpr hcur_vis)
    exact ⟨d, hd, hinv.disc_le d (dget_mem_snd hd)⟩
  obtain ⟨d, hd, hdle⟩ := hdisc_cur
  have hdlt : d < s.steps + 1 := by omega
  refine ⟨?_, hcur_vis, d, hd, hdlt⟩
  exact {
    start_visited := hinv.start_visited
    parent_start := hinv.parent_start
    parent_keys_visited := hinv.parent_keys_visited
    parent_props := hinv.parent_props
    visited_parent := hinv.visited_parent
    disc_dom := hinv.disc_dom
    disc_start := hinv.disc_start
    disc_le := by
      intro d1 hd1
      have := hinv.disc_le d1 hd1
      show d1 ≤ s.steps + 1
      omega
    parent_rank := hinv.parent_rank
    frontier_nodup := hrest_nodup
    frontier_visited := by
      intro c hc
      exact hinv.frontier_visited (hrest_sub hc)
    frontier_unexpanded := by
      intro c hc
      have hcne : c ≠ current := fun he => hcnr (he ▸ hc)
      show dget (dset s.node_expansion current (s.steps + 1)) c = none
      rw [dget_dset_ne _ _ hcne]
      exact hinv.frontier_unexpanded c (hrest_sub hc)
    exp_dom_visited := by
      intro c hc
      show c ∈ s.visited
      by_cases hcc : c = current
      · subst hcc
        exact hcur_vis
      · rw [show (uExpand s current rest).node_expansion =
          dset s.node_expansion current (s.steps + 1) from rfl,
          dget_dset_ne _ _ hcc] at hc
        exact hinv.exp_dom_visited c hc
    exp_le := by
      intro e he
      show e ≤ s.steps + 1
      rw [show (uExpand s current rest).node_expansion =
        dset s.node_expansion current (s.steps + 1) from rfl, hexp_app,
        List.map_append] at he
      rcases List.mem_append.mp he with he1 | he1
      · have := hinv.exp_le e he1
        omega
      · rw [List.map_singleton, List.mem_singleton] at he1
        omega
    exp_pairwise := by
      show ((dset s.node_expansion current (s.steps + 1)).map Prod.snd).Pairwise (· < ·)
      rw [hexp_app, List.map_append, List.map_singleton]
      refine pairwise_lt_append_singleton hinv.exp_pairwise ?_
      intro x hx
      have := hinv.exp_le x hx
      omega
    disc_lt_exp := by
      intro c e he
      show ∃ d1, dget s.node_discovery c = some d1 ∧ d1 < e
      by_cases hcc : c = current
      · subst hcc
        rw [show (uExpand s c rest).node_expansion =
          dset s.node_expansion c (s.steps + 1) from rfl, dget_dset_self] at he
        cases he
        exact ⟨d, hd, by omega⟩
      · rw [show (uExpand s current rest).node_expansion =
          dset s.node_expansion current (s.steps + 1) from rfl,
          dget_dset_ne _ _ hcc] at he
        exact hinv.disc_lt_exp c e he
    visited_eq := hinv.visited_eq
    enqueue_nodup := hinv.enqueue_nodup
    enqueue_sub := hinv.enqueue_sub
    parentlog_nodup := hinv.parentlog_nodup
    parentlog_sub := hinv.parentlog_sub
    disclog_nodup := hinv.disclog_nodup
    disclog_sub := hinv.disclog_sub
    explog_nodup := by
      show (s.expansion_log ++ [current]).Nodup
      refine nodup_append_singleton hinv.explog_nodup ?_
      intro hmem
      have := hinv.explog_sub current hmem
      rw [hexp_none] at this
      cases this
    explog_sub := by
      intro c hc
      rcases List.mem_append.mp hc with hc1 | hc1
      · have h1 := hinv.explog_sub c hc1
        have hcne : c ≠ current := by
          intro he
          subst he
          rw [hexp_none] at h1
          cases h1
        show (dget (dset s.node_expansion current (s.steps + 1)) c).isSome = true
        rw [dget_dset_ne _ _ hcne]
        exact h1
      · rw [List.mem_singleton] at hc1
        subst hc1
        show (dget (dset s.node_expansion c (s.steps + 1)) c).isSome = true
        rw [dget_dset_self]
        rfl }

theorem uRecord_inv {env : MazeEnvironment} {start : Cell} {s3 : UState}
    (h : UInv env start s3) (current : Cell) (fb added : List Cell) :
    UInv env start (uRecord start current fb added s3) where
  start_visited := h.start_visited
  parent_start := h.parent_start
  parent_keys_visited := h.parent_keys_visited
  parent_props := h.parent_props
  visited_parent := h.visited_parent
  disc_dom := h.disc_dom
  disc_start := h.disc_start
  disc_le := h.disc_le
  parent_rank := h.parent_rank
  frontier_nodup := h.frontier_nodup
  frontier_visited := h.frontier_visited
  frontier_unexpanded := h.frontier_unexpanded
  exp_dom_visited := h.exp_dom_visited
  exp_le := h.exp_le
  exp_pairwise := h.exp_pairwise
  disc_lt_exp := h.disc_lt_exp
  visited_eq := h.visited_eq
  enqueue_nodup := h.enqueue_nodup
  enqueue_sub := h.enqueue_sub
  parentlog_nodup := h.parentlog_nodup
  parentlog_sub := h.parentlog_sub
  disclog_nodup := h.disclog_nodup
  disclog_sub := h.disclog_sub
  explog_nodup := h.explog_nodup
  explog_sub := h.explog_sub

/-- Dissection of one loop iteration into its three outcomes. -/
theorem uStep_cases (us : UninformedStrategy) (env : MazeEnvironment)
    (showExp : Bool) (start goal : Cell) (s : UState) :
    (us.get_next_node s.frontier = none ∧
      uStep us env showExp start goal s = StepOut.done (uFailureResult s)) ∨
    (∃ current rest, us.get_next_node s.frontier = some (current, rest) ∧
      current = goal ∧
      uStep us env showExp start goal s =
        StepOut.done (uSuccessResult (uExpand s current rest) start goal)) ∨
    (∃ current rest, us.get_next_node s.frontier = some (current, rest) ∧
      current ≠ goal ∧
      uStep us env showExp start goal s = StepOut.next
        (if showExp then
          uRecord start current s.frontier
            ((env.graph current).foldl (uProcessNeighbor current)
              (uExpand s current rest, [])).2
            ((env.graph current).foldl (uProcessNeighbor current)
              (uExpand s current rest, [])).1
         else
          ((env.graph current).foldl (uProcessNeighbor current)
            (uExpand s current rest, [])).1)) := by
  cases hpop : us.get_next_node s.frontier with
  | none =>
    refine Or.inl ⟨rfl, ?_⟩
    rw [uStep, hpop]
  | some cr =>
    obtain ⟨current, rest⟩ := cr
    by_cases hgoal : current = goal
    · refine Or.inr (Or.inl ⟨current, rest, rfl, hgoal, ?_⟩)
      rw [uStep, hpop]
      simp only [if_pos hgoal]
    · refine Or.inr (Or.inr ⟨current, rest, rfl, hgoal, ?_⟩)
      rw [uStep, hpop]
      simp only [if_neg hgoal]
      by_cases hshow : showExp
      · rw [if_pos hshow, if_pos hshow]
      · rw [if_neg hshow, if_neg hshow]

/-- The invariant is preserved by every `next` transition. -/
theorem uStep_next_inv {us : UninformedStrategy} {env : MazeEnvironment}
    {showExp : Bool} {start goal : Cell} {s s1 : UState}
    (hinv : UInv env start s)
    (h : uStep us env showExp start goal s = StepOut.next s1) :
    UInv env start s1 ∧ s1.steps = s.steps + 1 := by
  rcases uStep_cases us env showExp start goal s with
    ⟨_, heq⟩ | ⟨current, rest, hpop, hgoal, heq⟩ |
    ⟨current, rest, hpop, hgoal, heq⟩
  · rw [heq] at h
    cases h
  · rw [heq] at h
    cases h
  · rw [heq] at h
    cases h
    have hff := uFold_foldfacts (env.graph current) (fun n hn => hn)
      (uExpand s current rest, []) (uExpand_foldfacts hinv hpop)
    have hsteps := uFold_steps current (env.graph current)
      (uExpand s current rest, [])
    by_cases hshow : showExp
    · rw [if_pos hshow]
      exact ⟨uRecord_inv hff.1 current s.frontier _, by
        show (uRecord _ _ _ _ _).steps = s.steps + 1
        rw [show (uRecord start current s.frontier _ _).steps =
          ((env.graph current).foldl (uProcessNeighbor current)
            (uExpand s current rest, [])).1.steps from rfl, hsteps]
        rfl⟩
    · rw [if_neg hshow]
      exact ⟨hff.1, by rw [hsteps]; rfl⟩

/-- `UInv` holds at the top of every loop iteration. -/
theorem uIter_inv {us : UninformedStrategy} {env : MazeEnvironment}
    {showExp : Bool} {start goal : Cell} :
    ∀ (n : Nat) (s s1 : UState), UInv env start s →
    uIter us env showExp start goal n s = some s1 → UInv env start s1 := by
  intro n
  induction n with
  | zero =>
    intro s s1 hinv h
    rw [uIter] at h
    cases h
    exact hinv
  | succ n ih =>
    intro s s1 hinv h
    rw [uIter] at h
    cases hstep : uStep us env showExp start goal s with
    | done r =>
      rw [hstep] at h
      cases h
    | next s2 =>
      rw [hstep] at h
      exact ih s2 s1 (uStep_next_inv hinv hstep).1 h

/-- The `ParentMapOK` instance a `UInv` state carries (rank = discovery
step). -/
theorem UInv.uParentMapOK {env : MazeEnvironment} {start : Cell} {s : UState}
    (h : UInv env start s) :
    ParentMapOK env s.parent start s.visited
      (fun c => (dget s.node_discovery c).getD 0) where
  start_none := h.parent_start
  complete := h.visited_parent
  parent_dom := fun c p hp => (h.parent_props c p hp).1
  edge := fun c p hp => (h.parent_props c p hp).2.1
  rank_lt := by
    intro c p hc hp
    have hcv : c ∈ s.visited := h.parent_keys_visited c (by rw [hp]; rfl)
    have hpv : p ∈ s.visited := (h.parent_props c p hp).1
    obtain ⟨dc, hdc⟩ := Option.isSome_iff_exists.mp ((h.disc_dom c).mpr hcv)
    obtain ⟨dp, hdp⟩ := Option.isSome_iff_exists.mp ((h.disc_dom p).mpr hpv)
    rw [hdc, hdp]
    simpa using h.parent_rank c p dc dp hp hdc hdp

/-- Facts about the result of the uninformed loop, for any fuel and any
invariant-satisfying start state: the step bound, the final discovery and
expansion maps coming from an invariant state, and full path validity on
success. -/
theorem uLoop_facts (us : UninformedStrategy) (env : MazeEnvironment)
    (showExp : Bool) (start goal : Cell) :
    ∀ (fuel : Nat) (s : UState), UInv env start s →
    (uLoop us env showExp start goal fuel s).steps ≤ s.steps + fuel ∧
    (∃ s1, UInv env start s1 ∧
      (uLoop us env showExp start goal fuel s).node_discovery = s1.node_discovery ∧
      (uLoop us env showExp start goal fuel s).node_expansion = s1.node_expansion) ∧
    ((uLoop us env showExp start goal fuel s).success = true →
      ∃ p, (uLoop us env showExp start goal fuel s).path = some p ∧
        p.head? = some start ∧ p.getLast? = some goal ∧ p.Nodup ∧
        List.Chain' (fun a b => b ∈ env.graph a) p) := by
  intro fuel
  induction fuel with
  | zero =>
    intro s hinv
    refine ⟨le_refl _, ⟨s, hinv, rfl, rfl⟩, ?_⟩
    intro hsucc
    rw [uLoop] at hsucc
    cases hsucc
  | succ n ih =>
    intro s hinv
    rcases uStep_cases us env showExp start goal s with
      ⟨hpop, heq⟩ | ⟨current, rest, hpop, hgoal, heq⟩ |
      ⟨current, rest, hpop, hgoal, heq⟩
    · rw [uLoop, heq]
      refine ⟨by show s.steps ≤ s.steps + (n+1); omega, ⟨s, hinv, rfl, rfl⟩, ?_⟩
      intro hsucc
      cases hsucc
    · subst hgoal
      rw [uLoop, heq]
      have hff := uExpand_foldfacts hinv hpop
      obtain ⟨hinv2, hgvis, _⟩ := hff
      refine ⟨?_, ⟨uExpand s current rest, hinv2, rfl, rfl⟩, ?_⟩
      · show s.steps + 1 ≤ s.steps + (n + 1)
        omega
      · intro _
        have hok := hinv2.uParentMapOK
        obtain ⟨p, hrec, hh, hl, hnd, hch⟩ := reconstruct_ok hok hgvis
        exact ⟨p, hrec, hh, hl, hnd, hch⟩
    · set s1 := (if showExp then
          uRecord start current s.frontier
            ((env.graph current).foldl (uProcessNeighbor current)
              (uExpand s current rest, [])).2
            ((env.graph current).foldl (uProcessNeighbor current)
              (uExpand s current rest, [])).1
         else
          ((env.graph current).foldl (uProcessNeighbor current)
            (uExpand s current rest, [])).1) with hs1
      have hnext : uStep us env showExp start goal s = StepOut.next s1 := heq
      have hloop_eq : uLoop us env showExp start goal (Nat.succ n) s =
          uLoop us env showExp start goal n s1 := by
        rw [uLoop, hnext]
      obtain ⟨hinv1, hsteps1⟩ := uStep_next_inv hinv hnext
      obtain ⟨hle, hstate, hsucc⟩ := ih s1 hinv1
      rw [hloop_eq]
      refine ⟨?_, hstate, hsucc⟩
      rw [hsteps1] at hle
      omega

/-- On a singleton frontier every strategy must pop that cell. -/
theorem get_next_singleton (us : UninformedStrategy) (c : Cell) :
    us.get_next_node [c] = some (c, []) := by
  cases hpop : us.get_next_node [c] with
  | none =>
    have := (us.get_next_none [c]).mp hpop
    cases this
  | some cr =>
    obtain ⟨c1, r⟩ := cr
    have hperm := us.get_next_perm [c] c1 r hpop
    have hlen : (1 : Nat) = r.length + 1 := by
      simpa using hperm.length_eq
    have hr : r = [] := by
      cases r with
      | nil => rfl
      | cons a as => simp at hlen
    subst hr
    have hc : c1 = c := by
      have hm := hperm.mem_iff.mpr (List.mem_cons_self c1 [])
      simpa using hm
    subst hc
    rfl

/-- Unfolding equations of the loop. -/
theorem uLoop_succ_done {us : UninformedStrategy} {env : MazeEnvironment}
    {showExp : Bool} {start goal : Cell} {s : UState} {r : SearchResult}
    (h : uStep us env showExp start goal s = StepOut.done r) (n : Nat) :
    uLoop us env showExp start goal (Nat.succ n) s = r := by
  rw [uLoop, h]

theorem uLoop_succ_next {us : UninformedStrategy} {env : MazeEnvironment}
    {showExp : Bool} {start goal : Cell} {s s1 : UState}
    (h : uStep us env showExp start goal s = StepOut.next s1) (n : Nat) :
    uLoop us env showExp start goal (Nat.succ n) s =
      uLoop us env showExp start goal n s1 := by
  rw [uLoop, h]

/-- With `max_steps = 1` the uninformed loop runs exactly one iteration. -/
theorem uninformed_limit_one (us : UninformedStrategy) (env : MazeEnvironment)
    (showExp : Bool) (start goal : Cell) :
    (uninformed_search us env showExp start goal 1).steps = 1 ∧
    ((uninformed_search us env showExp start goal 1).success = true ↔ start = goal) := by
  have hpop : us.get_next_node (uInit start).frontier = some (start, []) :=
    get_next_singleton us start
  have hone : (1 : Nat) = Nat.succ 0 := rfl
  rw [uninformed_search, hone]
  rcases uStep_cases us env showExp start goal (uInit start) with
    ⟨hnone, _⟩ | ⟨c, r, hpop2, hgoal, heq⟩ | ⟨c, r, hpop2, hgoal, heq⟩
  · rw [hpop] at hnone
    cases hnone
  · rw [hpop] at hpop2
    obtain ⟨rfl, rfl⟩ : c = start ∧ r = [] := by
      cases hpop2
      exact ⟨rfl, rfl⟩
    rw [uLoop_succ_done heq 0]
    subst hgoal
    exact ⟨rfl, by simp [uSuccessResult]⟩
  · rw [hpop] at hpop2
    obtain ⟨rfl, rfl⟩ : c = start ∧ r = [] := by
      cases hpop2
      exact ⟨rfl, rfl⟩
    rw [uLoop_succ_next heq 0, uLoop]
    constructor
    · show (uFailureResult _).steps = 1
      have hfold := uFold_steps c (env.graph c) (uExpand (uInit c) c [], [])
      by_cases hshow : showExp
      · rw [if_pos hshow]
        show ((env.graph c).foldl (uProcessNeighbor c)
          (uExpand (uInit c) c [], [])).1.steps = 1
        rw [hfold]
        rfl
      · rw [if_neg hshow]
        show ((env.graph c).foldl (uProcessNeighbor c)
          (uExpand (uInit c) c [], [])).1.steps = 1
        rw [hfold]
        rfl
    · show false = true ↔ c = goal
      simp [hgoal]

/-! ## The informed search loop (`AStarSearch.search` and
`GreedyBestFirstSearch.search`)

The two `search` bodies are line-for-line identical except for the entry
shape and the three strategy hooks; we embed them as one loop parameterized
by `_calculate_f`, `_should_update_node` and the sort comparator.  Greedy's
`(f, node)` frontier entries are embedded as `(f, g, node)` triples whose
middle component never influences its comparator. -/

/-- The strategy hooks of the informed algorithms. -/
structure InformedStrategy where
  calculate_f : Int → Int → Int
  should_update_node : Cell → Int → List (Cell × Int) → List (Cell × Int) → Bool
  sort_le : AEntry → AEntry → Bool

namespace AStarSearch

/-- `AStarSearch._calculate_f`: `g + h`. -/
def calculate_f (g h : Int) : Int := g + h

/-- `AStarSearch._should_update_node`: update iff the node is not in the
frontier, or the new g beats `g_value.get(neighbor, float('inf'))` (a
missing entry compares as infinity, so the comparison is then true). -/
def should_update_node (neighbor : Cell) (tentative_g : Int)
    (g_value frontier_dict : List (Cell × Int)) : Bool :=
  !(dget frontier_dict neighbor).isSome ||
    (match dget g_value neighbor with
     | none => true
     | some gN => decide (tentative_g < gN))

/-- The total preorder behind `frontier.sort(key=lambda x: (x[0], -x[1]))`:
compare by `f` ascending, ties by `g` descending. -/
def sort_key_le (a b : AEntry) : Bool :=
  decide (a.1 < b.1) || (decide (a.1 = b.1) && decide (b.2.1 ≤ a.2.1))

end AStarSearch

def aStarStrategy : InformedStrategy where
  calculate_f := AStarSearch.calculate_f
  should_update_node := AStarSearch.should_update_node
  sort_le := AStarSearch.sort_key_le

namespace GreedyBestFirstSearch

/-- `GreedyBestFirstSearch._calculate_f`: `f = h`. -/
def calculate_f (_ h : Int) : Int := h

/-- `GreedyBestFirstSearch._should_update_node`: update iff the node is not
in the frontier. -/
def should_update_node (neighbor : Cell) (_ : Int)
    (_ frontier_dict : List (Cell × Int)) : Bool :=
  !(dget frontier_dict neighbor).isSome

/-- The preorder behind `frontier.sort(key=lambda x: x[0])`. -/
def sort_key_le (a b : AEntry) : Bool := decide (a.1 ≤ b.1)

end GreedyBestFirstSearch

def greedyStrategy : InformedStrategy where
  calculate_f := GreedyBestFirstSearch.calculate_f
  should_update_node := GreedyBestFirstSearch.should_update_node
  sort_le := GreedyBestFirstSearch.sort_key_le

/-- `frontier.sort(...)` followed by `frontier.pop(0)`: Python's sort is
stable, and a stable sort by a total preorder is unique, so Mathlib's
(stable) insertion sort computes exactly the Python sorted list; the popped
entry is its head. -/
def informed_extract (sort_le : AEntry → AEntry → Bool)
    (frontier : List AEntry) : Option (AEntry × List AEntry) :=
  match List.insertionSort (fun a b => sort_le a b = true) frontier with
  | [] => none
  | e :: rest => some (e, rest)

/-- Loop state of the informed `search` bodies at the top of an iteration.
`g_value` is the algorithmic cost dict; `node_g_value` is the separate
metrics dict.  The `_log` fields are ghost instrumentation as in `UState`. -/
structure InfState where
  frontier : List AEntry
  frontier_dict : List (Cell × Int)
  closed_set : List Cell
  visited_order : List Cell
  parent : List (Cell × Cell)
  g_value : List (Cell × Int)
  exploration_history : List HistEntry
  node_discovery : List (Cell × Nat)
  node_expansion : List (Cell × Nat)
  node_h_value : List (Cell × Int)
  node_g_value : List (Cell × Int)
  node_f_value : List (Cell × Int)
  steps : Nat
  parent_log : List Cell
  discovery_log : List Cell
  expansion_log : List Cell

/-- `_initialize_metrics` plus the local initialization of `search`
(frontier `[(f0, 0, start)]`, `frontier_dict {start: f0}`, empty closed
set, `visited_order = [start]`, `parent = {start: None}`,
`g_value = {start: 0}`). -/
def iInit (strat : InformedStrategy) (env : MazeEnvironment)
    (start goal : Cell) : InfState :=
  let h0 := env.calculate_manhattan_distance start goal
  let f0 := strat.calculate_f 0 h0
  { frontier := [(f0, 0, start)]
    frontier_dict := [(start, f0)]
    closed_set := []
    visited_order := [start]
    parent := []
    g_value := [(start, 0)]
    exploration_history := []
    node_discovery := [(start, 0)]
    node_expansion := []
    node_h_value := [(start, h0)]
    node_g_value := [(start, 0)]
    node_f_value := [(start, f0)]
    steps := 0
    parent_log := [start]
    discovery_log := [start]
    expansion_log := [] }

/-- The neighbor-processing body of the informed loop (A* lines 89-122,
Greedy lines 67-101): skip closed neighbors; compute
`tentative_g = g_value[current] + step cost`; if `_should_update_node`
fires, overwrite parent / g / h / f, record first discovery, replace any
existing frontier entry for the neighbor and append the fresh one. -/
def iApplyUpdate (strat : InformedStrategy) (env : MazeEnvironment)
    (goal current : Cell) (s : InfState) (neighbor : Cell)
    (tentative_g : Int) : InfState :=
  let h := env.calculate_manhattan_distance neighbor goal
  let f := strat.calculate_f tentative_g h
  let discNew := !(dget s.node_discovery neighbor).isSome
  { frontier :=
      (if (dget s.frontier_dict neighbor).isSome then
        s.frontier.filter (fun e => decide (e.2.2 ≠ neighbor))
       else s.frontier) ++ [(f, tentative_g, neighbor)]
    frontier_dict := dset s.frontier_dict neighbor f
    closed_set := s.closed_set
    visited_order := if discNew then s.visited_order ++ [neighbor]
      else s.visited_order
    parent := dset s.parent neighbor current
    g_value := dset s.g_value neighbor tentative_g
    exploration_history := s.exploration_history
    node_discovery := if discNew then dset s.node_discovery neighbor s.steps
      else s.node_discovery
    node_expansion := s.node_expansion
    node_h_value := dset s.node_h_value neighbor h
    node_g_value := dset s.node_g_value neighbor tentative_g
    node_f_value := dset s.node_f_value neighbor f
    steps := s.steps
    parent_log := s.parent_log ++ [neighbor]
    discovery_log := if discNew then s.discovery_log ++ [neighbor]
      else s.discovery_log
    expansion_log := s.expansion_log }

/-- The neighbor-processing body of the informed loop (A* lines 89-122,
Greedy lines 67-101): skip closed neighbors; compute
`tentative_g = g_value[current] + step cost`; if `_should_update_node`
fires, overwrite parent / g / h / f, record first discovery, replace any
existing frontier entry for the neighbor and append the fresh one.  The
source performs these updates as sequential mutations; `iApplyUpdate`
flattens them into one record (each later statement of the source reads
only fields the earlier ones did not modify, so the flattening is exact:
the discovery check reads the unmodified `node_discovery`, the frontier
membership test and the entry filter read the unmodified `frontier_dict`
and `frontier`). -/
def iProcessNeighbor (strat : InformedStrategy) (env : MazeEnvironment)
    (goal current : Cell) (acc : InfState × List AEntry)
    (neighbor : Cell) : InfState × List AEntry :=
  let s := acc.1
  if neighbor ∈ s.closed_set then acc
  else
    let tentative_g := (dget s.g_value current).getD 0 +
      env.get_step_cost current neighbor
    if strat.should_update_node neighbor tentative_g s.g_value s.frontier_dict then
      let h := env.calculate_manhattan_distance neighbor goal
      let f := strat.calculate_f tentative_g h
      (iApplyUpdate strat env goal current s neighbor tentative_g,
        acc.2 ++ [(f, tentative_g, neighbor)])
    else acc

/-- The pop / closed-set / expansion part of an iteration (A* lines 56-65,
Greedy lines 39-51): `steps += 1`, sort and pop the head, delete it from
`frontier_dict`, add it to the closed set, record its expansion step. -/
def iExpand (s : InfState) (current : Cell) (rest : List AEntry) : InfState :=
  { s with
      steps := s.steps + 1
      frontier := rest
      frontier_dict := ddel s.frontier_dict current
      closed_set := sadd s.closed_set current
      node_expansion := dset s.node_expansion current (s.steps + 1)
      expansion_log := s.expansion_log ++ [current] }

/-- The success result of the informed loop (all metrics attached). -/
def iSuccessResult (s : InfState) (start goal : Cell) : SearchResult where
  path := reconstruct_path s.parent start goal
  visited := s.visited_order
  success := true
  steps := s.steps
  exploration_history := s.exploration_history
  node_discovery := s.node_discovery
  node_expansion := s.node_expansion
  node_h_value := s.node_h_value
  node_g_value := s.node_g_value
  node_f_value := s.node_f_value

/-- The failure result of the informed loop. -/
def iFailureResult (s : InfState) : SearchResult where
  path := none
  visited := s.visited_order
  success := false
  steps := s.steps
  exploration_history := s.exploration_history
  node_discovery := s.node_discovery
  node_expansion := s.node_expansion
  node_h_value := s.node_h_value
  node_g_value := s.node_g_value
  node_f_value := s.node_f_value

/-- The exploration-history append of the informed loop (`frontier_before`
is captured after the pop, per the source). -/
def iRecord (start current : Cell) (frontier_before : List AEntry)
    (added : List AEntry) (s3 : InfState) : InfState :=
  { s3 with
      exploration_history := s3.exploration_history ++
        [HistEntry.informed s3.closed_set s3.frontier
          (if current = start then some [start]
           else reconstruct_path s3.parent start current)
          { step := s3.steps
            expanded_node := current
            expanded_node_f := (dget s3.node_f_value current).getD 0
            expanded_node_g := (dget s3.node_g_value current).getD 0
            expanded_node_h := (dget s3.node_h_value current).getD 0
            neighbors_added := added
            frontier_before := frontier_before
            frontier_after := s3.frontier }] }

/-- One iteration of the informed `while` loop. -/
def iStep (strat : InformedStrategy) (env : MazeEnvironment) (showExp : Bool)
    (start goal : Cell) (s : InfState) : StepOut InfState :=
  match informed_extract strat.sort_le s.frontier with
  | none => StepOut.done (iFailureResult s)
  | some (e, rest) =>
    let current := e.2.2
    let s2 := iExpand s current rest
    if current = goal then StepOut.done (iSuccessResult s2 start goal)
    else
      let fold := (env.graph current).foldl
        (iProcessNeighbor strat env goal current) (s2, [])
      if showExp then
        StepOut.next (iRecord start current s2.frontier fold.2 fold.1)
      else StepOut.next fold.1

/-- The fuel-indexed informed loop. -/
def iLoop (strat : InformedStrategy) (env : MazeEnvironment) (showExp : Bool)
    (start goal : Cell) : Nat → InfState → SearchResult
  | 0, s => iFailureResult s
  | Nat.succ n, s =>
    match iStep strat env showExp start goal s with
    | StepOut.done r => r
    | StepOut.next s1 => iLoop strat env showExp start goal n s1

/-- The shared informed `search(start, goal)` body. -/
def informed_search (strat : InformedStrategy) (env : MazeEnvironment)
    (showExp : Bool) (start goal : Cell) (max_steps : Nat) : SearchResult :=
  iLoop strat env showExp start goal max_steps (iInit strat env start goal)

/-- `AStarSearch.search`. -/
def AStarSearch.search (env : MazeEnvironment) (showExp : Bool)
    (start goal : Cell) (max_steps : Nat) : SearchResult :=
  informed_search aStarStrategy env showExp start goal max_steps

/-- `GreedyBestFirstSearch.search`. -/
def GreedyBestFirstSearch.search (env : MazeEnvironment) (showExp : Bool)
    (start goal : Cell) (max_steps : Nat) : SearchResult :=
  informed_search greedyStrategy env showExp start goal max_steps

/-- States at the top of each informed loop iteration. -/
def iIter (strat : InformedStrategy) (env : MazeEnvironment) (showExp : Bool)
    (start goal : Cell) : Nat → InfState → Option InfState
  | 0, s => some s
  | Nat.succ n, s =>
    match iStep strat env showExp start goal s with
    | StepOut.done _ => none
    | StepOut.next s1 => iIter strat env showExp start goal n s1

/-! ## Invariants of the informed loop -/

/-- The node of a frontier entry. -/
def entryNode (e : AEntry) : Cell := e.2.2

theorem isSome_false_eq_none {α : Type} {o : Option α}
    (h : o.isSome = false) : o = none := by
  cases o with
  | none => rfl
  | some v => cases h

theorem mem_map_node_filter {l : List AEntry} {n c : Cell} :
    c ∈ (l.filter (fun e => decide (e.2.2 ≠ n))).map entryNode ↔
      c ∈ l.map entryNode ∧ c ≠ n := by
  induction l with
  | nil => simp
  | cons e l ih =>
    rw [List.filter_cons]
    by_cases he : e.2.2 = n
    · rw [show decide (e.2.2 ≠ n) = false from by simp [he], if_neg (by simp), ih]
      rw [List.map_cons, List.mem_cons]
      constructor
      · exact fun ⟨h1, h2⟩ => ⟨Or.inr h1, h2⟩
      · rintro ⟨rfl | h1, h2⟩
        · rw [entryNode, he] at h2
          exact absurd rfl h2
        · exact ⟨h1, h2⟩
    · rw [show decide (e.2.2 ≠ n) = true from by simp [he], if_pos rfl]
      rw [List.map_cons, List.mem_cons, List.map_cons, List.mem_cons, ih]
      constructor
      · rintro (rfl | ⟨h1, h2⟩)
        · exact ⟨Or.inl rfl, by rw [entryNode]; exact he⟩
        · exact ⟨Or.inr h1, h2⟩
      · rintro ⟨rfl | h1, h2⟩
        · exact Or.inl rfl
        · exact Or.inr ⟨h1, h2⟩

theorem nodup_map_node_filter {l : List AEntry} {n : Cell}
    (h : (l.map entryNode).Nodup) :
    ((l.filter (fun e => decide (e.2.2 ≠ n))).map entryNode).Nodup := by
  induction l with
  | nil => simp
  | cons e l ih =>
    rw [List.map_cons, List.nodup_cons] at h
    rw [List.filter_cons]
    by_cases he : e.2.2 = n
    · rw [show decide (e.2.2 ≠ n) = false from by simp [he], if_neg (by simp)]
      exact ih h.2
    · rw [show decide (e.2.2 ≠ n) = true from by simp [he], if_pos rfl]
      rw [List.map_cons, List.nodup_cons]
      refine ⟨?_, ih h.2⟩
      intro hmem
      exact h.1 (mem_map_node_filter.mp hmem).1

/-- The invariant maintained by the informed loop at the top of every
iteration.  In particular (C10) the frontier list and `frontier_dict` are
synchronized, and the parent map always points into the closed set with
strictly decreasing expansion steps. -/
structure IInv (env : MazeEnvironment) (start : Cell) (s : InfState) : Prop where
  fr_nodes_nodup : (s.frontier.map entryNode).Nodup
  fr_dict_iff : ∀ c, c ∈ s.frontier.map entryNode ↔
    (dget s.frontier_dict c).isSome = true
  fr_closed : ∀ e ∈ s.frontier, e.2.2 ∉ s.closed_set
  dict_g : ∀ c, (dget s.frontier_dict c).isSome = true →
    (dget s.g_value c).isSome = true
  closed_g : ∀ c ∈ s.closed_set, (dget s.g_value c).isSome = true
  parent_start : dget s.parent start = none
  parent_props : ∀ n c, dget s.parent n = some c →
    n ∈ env.graph c ∧ n ≠ start ∧ c ∈ s.closed_set
  closed_parent : ∀ n ∈ s.closed_set, n = start ∨ (dget s.parent n).isSome = true
  fr_parent : ∀ e ∈ s.frontier, e.2.2 = start ∨
    (dget s.parent e.2.2).isSome = true
  parent_rank : ∀ n c en ec, dget s.parent n = some c → n ∈ s.closed_set →
    dget s.node_expansion n = some en → dget s.node_expansion c = some ec →
    ec < en
  exp_dom : ∀ c, (dget s.node_expansion c).isSome = true ↔ c ∈ s.closed_set
  exp_le : ∀ e ∈ s.node_expansion.map Prod.snd, e ≤ s.steps
  exp_pairwise : (s.node_expansion.map Prod.snd).Pairwise (· < ·)
  disc_start : dget s.node_discovery start = some 0
  disc_le : ∀ d ∈ s.node_discovery.map Prod.snd, d ≤ s.steps
  fr_disc : ∀ e ∈ s.frontier, (dget s.node_discovery e.2.2).isSome = true
  disc_lt_exp : ∀ c e, dget s.node_expansion c = some e →
    ∃ d, dget s.node_discovery c = some d ∧ d < e
  start_state : start ∈ s.closed_set ∨
    (s.closed_set = [] ∧ ∃ f0, s.frontier = [(f0, 0, start)])
  disclog_nodup : s.discovery_log.Nodup
  disclog_dom : ∀ c ∈ s.discovery_log, (dget s.node_discovery c).isSome = true
  explog_nodup : s.expansion_log.Nodup
  explog_dom : ∀ c ∈ s.expansion_log, (dget s.node_expansion c).isSome = true

theorem iInit_inv (strat : InformedStrategy) (env : MazeEnvironment)
    (start goal : Cell) : IInv env start (iInit strat env start goal) where
  fr_nodes_nodup := by simp [iInit, entryNode]
  fr_dict_iff := by
    intro c
    show c ∈ [start] ↔ _
    by_cases hc : c = start
    · subst hc
      simp [iInit, dget]
    · simp only [List.mem_singleton, hc, iff_false, iInit]
      rw [dget_cons, if_neg (fun h : start = c => hc h.symm)]
      simp [dget]
  fr_closed := by
    intro e he
    simp [iInit] at he ⊢
  dict_g := by
    intro c hc
    show (dget [(start, 0)] c).isSome = true
    by_cases h : start = c
    · rw [dget_cons, if_pos h]
      rfl
    · rw [show (iInit strat env start goal).frontier_dict =
        [(start, strat.calculate_f 0 (env.calculate_manhattan_distance start goal))]
        from rfl, dget_cons, if_neg h] at hc
      simp [dget] at hc
  closed_g := by
    intro c hc
    simp [iInit] at hc
  parent_start := by simp [iInit, dget]
  parent_props := by
    intro n c h
    simp [iInit, dget] at h
  closed_parent := by
    intro n hn
    simp [iInit] at hn
  fr_parent := by
    intro e he
    simp only [iInit, List.mem_singleton] at he
    subst he
    exact Or.inl rfl
  parent_rank := by
    intro n c en ec h
    simp [iInit, dget] at h
  exp_dom := by
    intro c
    simp [iInit, dget]
  exp_le := by
    intro e he
    simp [iInit] at he
  exp_pairwise := by simp [iInit]
  disc_start := by simp [iInit, dget]
  disc_le := by
    intro d hd
    simp only [iInit, List.map_cons, List.map_nil, List.mem_singleton] at hd
    subst hd
    exact le_refl _
  fr_disc := by
    intro e he
    simp only [iInit, List.mem_singleton] at he
    subst he
    show (dget [(start, 0)] start).isSome = true
    rw [dget_cons, if_pos rfl]
    rfl
  disc_lt_exp := by
    intro c e h
    simp [iInit, dget] at h
  start_state := by
    refine Or.inr ⟨rfl, ?_⟩
    exact ⟨strat.calculate_f 0 (env.calculate_manhattan_distance start goal), rfl⟩
  disclog_nodup := by simp [iInit]
  disclog_dom := by
    intro c hc
    simp only [iInit, List.mem_singleton] at hc
    subst hc
    show (dget [(c, 0)] c).isSome = true
    rw [dget_cons, if_pos rfl]
    rfl
  explog_nodup := by simp [iInit]
  explog_dom := by
    intro c hc
    simp [iInit] at hc

/-- Fold context of the informed loop: the invariant plus membership of
`current` (just expanded) and `start` in the closed set. -/
def IFoldFacts (env : MazeEnvironment) (start current : Cell) (s : InfState) : Prop :=
  IInv env start s ∧ current ∈ s.closed_set ∧ start ∈ s.closed_set

theorem iApplyUpdate_inv {strat : InformedStrategy} {env : MazeEnvironment}
    {goal start current : Cell} {s : InfState} {neighbor : Cell} {tg : Int}
    (hinv : IInv env start s) (hcur : current ∈ s.closed_set)
    (hstart : start ∈ s.closed_set)
    (hedge : neighbor ∈ env.graph current) (hn : neighbor ∉ s.closed_set) :
    IInv env start (iApplyUpdate strat env goal current s neighbor tg) := by
  have hne_start : neighbor ≠ start := fun he => hn (he ▸ hstart)
  set hval := env.calculate_manhattan_distance neighbor goal with hhval
  set f := strat.calculate_f tg hval with hf
  -- the frontier part kept from the old frontier
  set F := if (dget s.frontier_dict neighbor).isSome then
      s.frontier.filter (fun e => decide (e.2.2 ≠ neighbor))
    else s.frontier with hF
  have hfrontier : (iApplyUpdate strat env goal current s neighbor tg).frontier =
      F ++ [(f, tg, neighbor)] := rfl
  have hdictq : (iApplyUpdate strat env goal current s neighbor tg).frontier_dict =
      dset s.frontier_dict neighbor f := rfl
  have hclosed : (iApplyUpdate strat env goal current s neighbor tg).closed_set =
      s.closed_set := rfl
  have hparent : (iApplyUpdate strat env goal current s neighbor tg).parent =
      dset s.parent neighbor current := rfl
  have hg : (iApplyUpdate strat env goal current s neighbor tg).g_value =
      dset s.g_value neighbor tg := rfl
  have hexp : (iApplyUpdate strat env goal current s neighbor tg).node_expansion =
      s.node_expansion := rfl
  have hsteps : (iApplyUpdate strat env goal current s neighbor tg).steps =
      s.steps := rfl
  have hdiscq : (iApplyUpdate strat env goal current s neighbor tg).node_discovery =
      (if !(dget s.node_discovery neighbor).isSome then
        dset s.node_discovery neighbor s.steps else s.node_discovery) := rfl
  have hdlog : (iApplyUpdate strat env goal current s neighbor tg).discovery_log =
      (if !(dget s.node_discovery neighbor).isSome then
        s.discovery_log ++ [neighbor] else s.discovery_log) := rfl
  have helog : (iApplyUpdate strat env goal current s neighbor tg).expansion_log =
      s.expansion_log := rfl
  -- facts about the kept part F of the frontier
  have hF_sub : F ⊆ s.frontier := by
    rw [hF]
    by_cases hd : (dget s.frontier_dict neighbor).isSome = true
    · rw [if_pos hd]
      exact fun a ha => List.mem_of_mem_filter ha
    · rw [if_neg (by simpa using hd)]
      exact fun a ha => ha
  have hF_nodup : (F.map entryNode).Nodup := by
    rw [hF]
    by_cases hd : (dget s.frontier_dict neighbor).isSome = true
    · rw [if_pos hd]
      exact nodup_map_node_filter hinv.fr_nodes_nodup
    · rw [if_neg (by simpa using hd)]
      exact hinv.fr_nodes_nodup
  have hF_notmem : neighbor ∉ F.map entryNode := by
    rw [hF]
    by_cases hd : (dget s.frontier_dict neighbor).isSome = true
    · rw [if_pos hd]
      intro hmem
      exact absurd rfl (mem_map_node_filter.mp hmem).2
    · rw [if_neg (by simpa using hd)]
      intro hmem
      exact hd (by rw [← hinv.fr_dict_iff neighbor]; exact hmem)
  have hF_mem_iff : ∀ c, c ≠ neighbor →
      (c ∈ F.map entryNode ↔ c ∈ s.frontier.map entryNode) := by
    intro c hc
    rw [hF]
    by_cases hd : (dget s.frontier_dict neighbor).isSome = true
    · rw [if_pos hd]
      rw [mem_map_node_filter]
      exact ⟨fun h1 => h1.1, fun h1 => ⟨h1, hc⟩⟩
    · rw [if_neg (by simpa using hd)]
  -- facts about the new discovery map
  have hdisc_pres : ∀ c, c ≠ neighbor →
      dget (iApplyUpdate strat env goal current s neighbor tg).node_discovery c =
      dget s.node_discovery c := by
    intro c hc
    rw [hdiscq]
    by_cases hd : (dget s.node_discovery neighbor).isSome = true
    · rw [hd]
      simp only [Bool.not_true, Bool.false_eq_true, if_false]
    · rw [Bool.not_eq_true] at hd
      rw [hd]
      simp only [Bool.not_false, if_true]
      exact dget_dset_ne _ _ hc
  have hdisc_n : (dget (iApplyUpdate strat env goal current s neighbor tg).node_discovery
      neighbor).isSome = true := by
    rw [hdiscq]
    by_cases hd : (dget s.node_discovery neighbor).isSome = true
    · rw [hd]
      simpa using hd
    · rw [Bool.not_eq_true] at hd
      rw [hd]
      simp only [Bool.not_false, if_true, dget_dset_self]
      rfl
  constructor
  case fr_nodes_nodup =>
    rw [hfrontier, List.map_append]
    exact nodup_append_singleton hF_nodup hF_notmem
  case fr_dict_iff =>
    intro c
    rw [hfrontier, hdictq, List.map_append]
    by_cases hc : c = neighbor
    · subst hc
      rw [dget_dset_self]
      constructor
      · intro _
        rfl
      · intro _
        rw [List.mem_append]
        right
        rw [List.map_singleton, List.mem_singleton]
        rfl
    · rw [dget_dset_ne _ _ hc, List.mem_append]
      constructor
      · rintro (h1 | h1)
        · rw [hF_mem_iff c hc] at h1
          exact (hinv.fr_dict_iff c).mp h1
        · rw [List.map_singleton, List.mem_singleton] at h1
          exact absurd h1 hc
      · intro h1
        exact Or.inl ((hF_mem_iff c hc).mpr ((hinv.fr_dict_iff c).mpr h1))
  case fr_closed =>
    intro e he
    rw [hclosed]
    rw [hfrontier] at he
    rcases List.mem_append.mp he with h1 | h1
    · exact hinv.fr_closed e (hF_sub h1)
    · rw [List.mem_singleton] at h1
      subst h1
      exact hn
  case dict_g =>
    intro c hc
    rw [hdictq] at hc
    rw [hg]
    by_cases hcn : c = neighbor
    · subst hcn
      rw [dget_dset_self]
      rfl
    · rw [dget_dset_ne _ _ hcn] at hc
      rw [dget_dset_ne _ _ hcn]
      exact hinv.dict_g c hc
  case closed_g =>
    intro c hc
    rw [hclosed] at hc
    rw [hg]
    have hcn : c ≠ neighbor := fun he => hn (he ▸ hc)
    rw [dget_dset_ne _ _ hcn]
    exact hinv.closed_g c hc
  case parent_start =>
    rw [hparent, dget_dset_ne _ _ (Ne.symm hne_start)]
    exact hinv.parent_start
  case parent_props =>
    intro m c hm
    rw [hparent] at hm
    rw [hclosed]
    by_cases hmn : m = neighbor
    · subst hmn
      rw [dget_dset_self] at hm
      cases hm
      exact ⟨hedge, hne_start, hcur⟩
    · rw [dget_dset_ne _ _ hmn] at hm
      exact hinv.parent_props m c hm
  case closed_parent =>
    intro m hm
    rw [hclosed] at hm
    rw [hparent]
    rcases hinv.closed_parent m hm with rfl | h1
    · exact Or.inl rfl
    · have hmn : m ≠ neighbor := fun he => hn (he ▸ hm)
      rw [dget_dset_ne _ _ hmn]
      exact Or.inr h1
  case fr_parent =>
    intro e he
    rw [hparent]
    rw [hfrontier] at he
    by_cases hen : e.2.2 = neighbor
    · rw [hen, dget_dset_self]
      exact Or.inr rfl
    · rcases List.mem_append.mp he with h1 | h1
      · rcases hinv.fr_parent e (hF_sub h1) with h2 | h2
        · exact Or.inl h2
        · rw [dget_dset_ne _ _ hen]
          exact Or.inr h2
      · rw [List.mem_singleton] at h1
        subst h1
        exact absurd rfl hen
  case parent_rank =>
    intro m c en ec hm hmc hen hec
    rw [hclosed] at hmc
    rw [hexp] at hen hec
    rw [hparent] at hm
    have hmn : m ≠ neighbor := fun he => hn (he ▸ hmc)
    rw [dget_dset_ne _ _ hmn] at hm
    exact hinv.parent_rank m c en ec hm hmc hen hec
  case exp_dom =>
    intro c
    rw [hexp, hclosed]
    exact hinv.exp_dom c
  case exp_le =>
    intro e he
    rw [hexp] at he
    rw [hsteps]
    exact hinv.exp_le e he
  case exp_pairwise =>
    rw [hexp]
    exact hinv.exp_pairwise
  case disc_start =>
    rw [hdisc_pres start (Ne.symm hne_start)]
    exact hinv.disc_start
  case disc_le =>
    intro d hd
    rw [hsteps]
    rw [hdiscq] at hd
    by_cases hds : (dget s.node_discovery neighbor).isSome = true
    · rw [hds] at hd
      simp only [Bool.not_true, Bool.false_eq_true, if_false] at hd
      exact hinv.disc_le d hd
    · rw [Bool.not_eq_true] at hds
      rw [hds] at hd
      simp only [Bool.not_false, if_true] at hd
      rw [dset_of_none _ (isSome_false_eq_none hds), List.map_append] at hd
      rcases List.mem_append.mp hd with h1 | h1
      · exact hinv.disc_le d h1
      · rw [List.map_singleton, List.mem_singleton] at h1
        subst h1
        exact le_refl _
  case fr_disc =>
    intro e he
    rw [hfrontier] at he
    by_cases hen : e.2.2 = neighbor
    · rw [hen]
      exact hdisc_n
    · rw [hdisc_pres _ hen]
      rcases List.mem_append.mp he with h1 | h1
      · exact hinv.fr_disc e (hF_sub h1)
      · rw [List.mem_singleton] at h1
        subst h1
        exact absurd rfl hen
  case disc_lt_exp =>
    intro c e he
    rw [hexp] at he
    have hc_closed : c ∈ s.closed_set := (hinv.exp_dom c).mp (by rw [he]; rfl)
    have hcn : c ≠ neighbor := fun h1 => hn (h1 ▸ hc_closed)
    rw [hdisc_pres c hcn]
    exact hinv.disc_lt_exp c e he
  case start_state =>
    rw [hclosed]
    exact Or.inl hstart
  case disclog_nodup =>
    rw [hdlog]
    by_cases hds : (dget s.node_discovery neighbor).isSome = true
    · rw [hds]
      simp only [Bool.not_true, Bool.false_eq_true, if_false]
      exact hinv.disclog_nodup
    · rw [Bool.not_eq_true] at hds
      rw [hds]
      simp only [Bool.not_false, if_true]
      refine nodup_append_singleton hinv.disclog_nodup ?_
      intro hmem
      have := hinv.disclog_dom neighbor hmem
      rw [hds] at this
      cases this
  case disclog_dom =>
    intro c hc
    rw [hdlog] at hc
    by_cases hds : (dget s.node_discovery neighbor).isSome = true
    · rw [hds] at hc
      simp only [Bool.not_true, Bool.false_eq_true, if_false] at hc
      have h1 := hinv.disclog_dom c hc
      by_cases hcn : c = neighbor
      · subst hcn
        exact hdisc_n
      · rw [hdisc_pres c hcn]
        exact h1
    · rw [Bool.not_eq_true] at hds
      rw [hds] at hc
      simp only [Bool.not_false, if_true] at hc
      rcases List.mem_append.mp hc with h1 | h1
      · have h2 := hinv.disclog_dom c h1
        have hcn : c ≠ neighbor := by
          intro he
          subst he
          rw [hds] at h2
          cases h2
        rw [hdisc_pres c hcn]
        exact h2
      · rw [List.mem_singleton] at h1
        subst h1
        exact hdisc_n
  case explog_nodup =>
    rw [helog]
    exact hinv.explog_nodup
  case explog_dom =>
    intro c hc
    rw [helog] at hc
    rw [hexp]
    exact hinv.explog_dom c hc

theorem informed_extract_none (sort_le : AEntry → AEntry → Bool)
    (frontier : List AEntry) :
    informed_extract sort_le frontier = none ↔ frontier = [] := by
  have hperm := List.perm_insertionSort (fun a b => sort_le a b = true) frontier
  rw [informed_extract]
  cases hs : List.insertionSort (fun a b => sort_le a b = true) frontier with
  | nil =>
    rw [hs] at hperm
    constructor
    · intro _
      exact hperm.symm.eq_nil
    · intro _
      rfl
  | cons e1 r1 =>
    rw [hs] at hperm
    constructor
    · intro h
      cases h
    · intro h
      subst h
      have := hperm.eq_nil
      cases this

theorem informed_extract_some {sort_le : AEntry → AEntry → Bool}
    {frontier : List AEntry} {e : AEntry} {rest : List AEntry}
    (h : informed_extract sort_le frontier = some (e, rest)) :
    frontier.Perm (e :: rest) := by
  have hperm := List.perm_insertionSort (fun a b => sort_le a b = true) frontier
  rw [informed_extract] at h
  cases hs : List.insertionSort (fun a b => sort_le a b = true) frontier with
  | nil =>
    rw [hs] at h
    cases h
  | cons e1 r1 =>
    rw [hs] at h
    cases h
    rw [hs] at hperm
    exact hperm.symm

/-- After the pop / closed-add / expansion-mark part of an informed
iteration, the fold context holds. -/
theorem iExpand_foldfacts {strat : InformedStrategy} {env : MazeEnvironment}
    {start : Cell} {s : InfState} {e : AEntry} {rest : List AEntry}
    (hinv : IInv env start s)
    (hext : informed_extract strat.sort_le s.frontier = some (e, rest)) :
    IFoldFacts env start e.2.2 (iExpand s e.2.2 rest) := by
  set current := e.2.2 with hcurdef
  have hperm : s.frontier.Perm (e :: rest) := informed_extract_some hext
  have hnodes_perm : (s.frontier.map entryNode).Perm (current :: rest.map entryNode) :=
    hperm.map entryNode
  have hcur_fr : e ∈ s.frontier := hperm.mem_iff.mpr (List.mem_cons_self e rest)
  have hcur_nodes : current ∈ s.frontier.map entryNode :=
    List.mem_map.mpr ⟨e, hcur_fr, rfl⟩
  have hnodes_nodup : (current :: rest.map entryNode).Nodup :=
    (List.Perm.nodup_iff hnodes_perm).mp hinv.fr_nodes_nodup
  have hcur_notin_rest : current ∉ rest.map entryNode :=
    (List.nodup_cons.mp hnodes_nodup).1
  have hrest_nodup : (rest.map entryNode).Nodup :=
    (List.nodup_cons.mp hnodes_nodup).2
  have hrest_sub : rest ⊆ s.frontier := by
    intro e1 he1
    exact hperm.mem_iff.mpr (List.mem_cons_of_mem e he1)
  have hcur_not_closed : current ∉ s.closed_set := hinv.fr_closed e hcur_fr
  have hexp_none : dget s.node_expansion current = none := by
    cases hx : dget s.node_expansion current with
    | none => rfl
    | some v =>
      exact absurd ((hinv.exp_dom current).mp (by rw [hx]; rfl)) hcur_not_closed
  have hclosed_app : sadd s.closed_set current = s.closed_set ++ [current] := by
    rw [sadd, if_neg hcur_not_closed]
  have hexp_app : dset s.node_expansion current (s.steps + 1) =
      s.node_expansion ++ [(current, s.steps + 1)] := dset_of_none _ hexp_none
  have hdict_cur : (dget s.frontier_dict current).isSome = true :=
    (hinv.fr_dict_iff current).mp hcur_nodes
  have hstart2 : start ∈ sadd s.closed_set current := by
    rcases hinv.start_state with h1 | ⟨hcl, f0, hfr⟩
    · exact sadd_subset _ _ h1
    · rw [hfr] at hperm
      have hlen : (1 : Nat) = rest.length + 1 := by simpa using hperm.length_eq
      have hrest_nil : rest = [] := by
        cases rest with
        | nil => rfl
        | cons a as => simp at hlen
      subst hrest_nil
      have he_eq : e = (f0, 0, start) := by
        have hm := hperm.mem_iff.mpr (List.mem_cons_self e [])
        simpa using hm
      have : current = start := by
        rw [hcurdef, he_eq]
      rw [this]
      exact mem_sadd_self _ _
  have hnot_rest_cur : ∀ e1 ∈ rest, e1.2.2 ≠ current := by
    intro e1 he1 heq
    exact hcur_notin_rest (heq ▸ List.mem_map.mpr ⟨e1, he1, rfl⟩)
  refine ⟨?_, mem_sadd_self _ _, hstart2⟩
  constructor
  case fr_nodes_nodup => exact hrest_nodup
  case fr_dict_iff =>
    intro c
    show c ∈ rest.map entryNode ↔ (dget (ddel s.frontier_dict current) c).isSome = true
    by_cases hc : c = current
    · subst hc
      rw [dget_ddel_self]
      simp only [Option.isSome_none, Bool.false_eq_true, iff_false]
      exact hcur_notin_rest
    · rw [dget_ddel_ne _ hc, ← hinv.fr_dict_iff c]
      have hmem : c ∈ s.frontier.map entryNode ↔
          c ∈ current :: rest.map entryNode := hnodes_perm.mem_iff
      rw [hmem]
      simp [hc]
  case fr_closed =>
    intro e1 he1
    show e1.2.2 ∉ sadd s.closed_set current
    intro hmem
    rcases mem_sadd.mp hmem with h1 | h1
    · exact hinv.fr_closed e1 (hrest_sub he1) h1
    · exact hnot_rest_cur e1 he1 h1
  case dict_g =>
    intro c hc
    show (dget s.g_value c).isSome = true
    by_cases hcc : c = current
    · subst hcc
      rw [show (iExpand s current rest).frontier_dict =
        ddel s.frontier_dict current from rfl, dget_ddel_self] at hc
      cases hc
    · rw [show (iExpand s current rest).frontier_dict =
        ddel s.frontier_dict current from rfl, dget_ddel_ne _ hcc] at hc
      exact hinv.dict_g c hc
  case closed_g =>
    intro c hc
    show (dget s.g_value c).isSome = true
    rcases mem_sadd.mp hc with h1 | h1
    · exact hinv.closed_g c h1
    · subst h1
      exact hinv.dict_g current hdict_cur
  case parent_start => exact hinv.parent_start
  case parent_props =>
    intro m c hm
    obtain ⟨h1, h2, h3⟩ := hinv.parent_props m c hm
    exact ⟨h1, h2, sadd_subset _ _ h3⟩
  case closed_parent =>
    intro m hm
    rcases mem_sadd.mp hm with h1 | h1
    · exact hinv.closed_parent m h1
    · subst h1
      exact hinv.fr_parent e hcur_fr
  case fr_parent =>
    intro e1 he1
    exact hinv.fr_parent e1 (hrest_sub he1)
  case parent_rank =>
    intro m c en ec hm hmc hen hec
    have hc_closed : c ∈ s.closed_set := (hinv.parent_props m c hm).2.2
    have hcc : c ≠ current := fun he => hcur_not_closed (he ▸ hc_closed)
    rw [show (iExpand s current rest).node_expansion =
      dset s.node_expansion current (s.steps + 1) from rfl,
      dget_dset_ne _ _ hcc] at hec
    by_cases hmcur : m = current
    · subst hmcur
      rw [show (iExpand s current rest).node_expansion =
        dset s.node_expansion current (s.steps + 1) from rfl, dget_dset_self] at hen
      cases hen
      have := hinv.exp_le ec (dget_mem_snd hec)
      omega
    · rw [show (iExpand s current rest).node_expansion =
        dset s.node_expansion current (s.steps + 1) from rfl,
        dget_dset_ne _ _ hmcur] at hen
      rcases mem_sadd.mp hmc with h1 | h1
      · exact hinv.parent_rank m c en ec hm h1 hen hec
      · exact absurd h1 hmcur
  case exp_dom =>
    intro c
    show (dget (dset s.node_expansion current (s.steps + 1)) c).isSome = true ↔
      c ∈ sadd s.closed_set current
    by_cases hcc : c = current
    · subst hcc
      rw [dget_dset_self]
      simp only [Option.isSome_some, true_iff]
      exact mem_sadd_self _ _
    · rw [dget_dset_ne _ _ hcc, hinv.exp_dom c, mem_sadd]
      simp [hcc]
  case exp_le =>
    intro x hx
    show x ≤ s.steps + 1
    rw [show (iExpand s current rest).node_expansion =
      dset s.node_expansion current (s.steps + 1) from rfl, hexp_app,
      List.map_append] at hx
    rcases List.mem_append.mp hx with h1 | h1
    · have := hinv.exp_le x h1
      omega
    · rw [List.map_singleton, List.mem_singleton] at h1
      omega
  case exp_pairwise =>
    show ((dset s.node_expansion current (s.steps + 1)).map Prod.snd).Pairwise (· < ·)
    rw [hexp_app, List.map_append, List.map_singleton]
    refine pairwise_lt_append_singleton hinv.exp_pairwise ?_
    intro x hx
    have := hinv.exp_le x hx
    omega
  case disc_start => exact hinv.disc_start
  case disc_le =>
    intro d hd
    show d ≤ s.steps + 1
    have := hinv.disc_le d hd
    omega
  case fr_disc =>
    intro e1 he1
    exact hinv.fr_disc e1 (hrest_sub he1)
  case disc_lt_exp =>
    intro c x hx
    by_cases hcc : c = current
    · subst hcc
      rw [show (iExpand s current rest).node_expansion =
        dset s.node_expansion current (s.steps + 1) from rfl, dget_dset_self] at hx
      cases hx
      obtain ⟨d, hd⟩ := Option.isSome_iff_exists.mp (hinv.fr_disc e hcur_fr)
      refine ⟨d, hd, ?_⟩
      have := hinv.disc_le d (dget_mem_snd hd)
      omega
    · rw [show (iExpand s current rest).node_expansion =
        dset s.node_expansion current (s.steps + 1) from rfl,
        dget_dset_ne _ _ hcc] at hx
      exact hinv.disc_lt_exp c x hx
  case start_state => exact Or.inl hstart2
  case disclog_nodup => exact hinv.disclog_nodup
  case disclog_dom => exact hinv.disclog_dom
  case explog_nodup =>
    show (s.expansion_log ++ [current]).Nodup
    refine nodup_append_singleton hinv.explog_nodup ?_
    intro hmem
    have := hinv.explog_dom current hmem
    rw [hexp_none] at this
    cases this
  case explog_dom =>
    intro c hc
    rcases List.mem_append.mp hc with h1 | h1
    · have h2 := hinv.explog_dom c h1
      have hcc : c ≠ current := by
        intro he
        subst he
        rw [hexp_none] at h2
        cases h2
      show (dget (dset s.node_expansion current (s.steps + 1)) c).isSome = true
      rw [dget_dset_ne _ _ hcc]
      exact h2
    · rw [List.mem_singleton] at h1
      subst h1
      show (dget (dset s.node_expansion current (s.steps + 1)) current).isSome = true
      rw [dget_dset_self]
      rfl

theorem iProcessNeighbor_foldfacts {strat : InformedStrategy}
    {env : MazeEnvironment} {goal start current : Cell}
    {acc : InfState × List AEntry} {neighbor : Cell}
    (h : IFoldFacts env start current acc.1)
    (hedge : neighbor ∈ env.graph current) :
    IFoldFacts env start current
      (iProcessNeighbor strat env goal current acc neighbor).1 := by
  obtain ⟨hinv, hcur, hstart⟩ := h
  by_cases hn : neighbor ∈ acc.1.closed_set
  · simpa only [iProcessNeighbor, if_pos hn] using
      (⟨hinv, hcur, hstart⟩ : IFoldFacts env start current acc.1)
  · by_cases hupd : strat.should_update_node neighbor
      ((dget acc.1.g_value current).getD 0 + env.get_step_cost current neighbor)
      acc.1.g_value acc.1.frontier_dict = true
    · have heq : (iProcessNeighbor strat env goal current acc neighbor).1 =
        iApplyUpdate strat env goal current acc.1 neighbor
          ((dget acc.1.g_value current).getD 0 +
            env.get_step_cost current neighbor) := by
        simp only [iProcessNeighbor, if_neg hn, if_pos hupd]
      rw [heq]
      exact ⟨iApplyUpdate_inv hinv hcur hstart hedge hn, hcur, hstart⟩
    · have heq : (iProcessNeighbor strat env goal current acc neighbor) = acc := by
        simp only [iProcessNeighbor, if_neg hn, if_neg hupd]
      rw [heq]
      exact ⟨hinv, hcur, hstart⟩

theorem iFold_foldfacts {strat : InformedStrategy} {env : MazeEnvironment}
    {goal start current : Cell} (ns : List Cell)
    (hsub : ∀ n ∈ ns, n ∈ env.graph current) :
    ∀ acc : InfState × List AEntry, IFoldFacts env start current acc.1 →
    IFoldFacts env start current
      ((ns.foldl (iProcessNeighbor strat env goal current) acc)).1 := by
  induction ns with
  | nil =>
    intro acc h
    exact h
  | cons n ns ih =>
    intro acc h
    rw [List.foldl_cons]
    exact ih (fun m hm => hsub m (List.mem_cons_of_mem n hm)) _
      (iProcessNeighbor_foldfacts h (hsub n (List.mem_cons_self n ns)))

theorem iFold_steps (strat : InformedStrategy) (env : MazeEnvironment)
    (goal current : Cell) (ns : List Cell) :
    ∀ acc : InfState × List AEntry,
    ((ns.foldl (iProcessNeighbor strat env goal current) acc).1).steps =
      acc.1.steps := by
  induction ns with
  | nil => intro acc; rfl
  | cons n ns ih =>
    intro acc
    rw [List.foldl_cons, ih]
    by_cases hn : n ∈ acc.1.closed_set
    · rw [iProcessNeighbor, if_pos hn]
    · by_cases hupd : strat.should_update_node n
        ((dget acc.1.g_value current).getD 0 + env.get_step_cost current n)
        acc.1.g_value acc.1.frontier_dict = true
      · simp only [iProcessNeighbor, if_neg hn, if_pos hupd]
        rfl
      · simp only [iProcessNeighbor, if_neg hn, if_neg hupd]

theorem iRecord_inv {env : MazeEnvironment} {start : Cell} {s3 : InfState}
    (h : IInv env start s3) (current : Cell) (fb added : List AEntry) :
    IInv env start (iRecord start current fb added s3) where
  fr_nodes_nodup := h.fr_nodes_nodup
  fr_dict_iff := h.fr_dict_iff
  fr_closed := h.fr_closed
  dict_g := h.dict_g
  closed_g := h.closed_g
  parent_start := h.parent_start
  parent_props := h.parent_props
  closed_parent := h.closed_parent
  fr_parent := h.fr_parent
  parent_rank := h.parent_rank
  exp_dom := h.exp_dom
  exp_le := h.exp_le
  exp_pairwise := h.exp_pairwise
  disc_start := h.disc_start
  disc_le := h.disc_le
  fr_disc := h.fr_disc
  disc_lt_exp := h.disc_lt_exp
  start_state := h.start_state
  disclog_nodup := h.disclog_nodup
  disclog_dom := h.disclog_dom
  explog_nodup := h.explog_nodup
  explog_dom := h.explog_dom

/-- Dissection of one informed loop iteration. -/
theorem iStep_cases (strat : InformedStrategy) (env : MazeEnvironment)
    (showExp : Bool) (start goal : Cell) (s : InfState) :
    (informed_extract strat.sort_le s.frontier = none ∧
      iStep strat env showExp start goal s = StepOut.done (iFailureResult s)) ∨
    (∃ e rest, informed_extract strat.sort_le s.frontier = some (e, rest) ∧
      e.2.2 = goal ∧
      iStep strat env showExp start goal s =
        StepOut.done (iSuccessResult (iExpand s e.2.2 rest) start goal)) ∨
    (∃ e rest, informed_extract strat.sort_le s.frontier = some (e, rest) ∧
      e.2.2 ≠ goal ∧
      iStep strat env showExp start goal s = StepOut.next
        (if showExp then
          iRecord start e.2.2 (iExpand s e.2.2 rest).frontier
            ((env.graph e.2.2).foldl (iProcessNeighbor strat env goal e.2.2)
              (iExpand s e.2.2 rest, [])).2
            ((env.graph e.2.2).foldl (iProcessNeighbor strat env goal e.2.2)
              (iExpand s e.2.2 rest, [])).1
         else
          ((env.graph e.2.2).foldl (iProcessNeighbor strat env goal e.2.2)
            (iExpand s e.2.2 rest, [])).1)) := by
  cases hext : informed_extract strat.sort_le s.frontier with
  | none =>
    refine Or.inl ⟨rfl, ?_⟩
    rw [iStep, hext]
  | some er =>
    obtain ⟨e, rest⟩ := er
    by_cases hgoal : e.2.2 = goal
    · refine Or.inr (Or.inl ⟨e, rest, rfl, hgoal, ?_⟩)
      rw [iStep, hext]
      simp only [if_pos hgoal]
    · refine Or.inr (Or.inr ⟨e, rest, rfl, hgoal, ?_⟩)
      rw [iStep, hext]
      simp only [if_neg hgoal]
      by_cases hshow : showExp
      · rw [if_pos hshow, if_pos hshow]
      · rw [if_neg hshow, if_neg hshow]

/-- The informed invariant is preserved by every `next` transition. -/
theorem iStep_next_inv {strat : InformedStrategy} {env : MazeEnvironment}
    {showExp : Bool} {start goal : Cell} {s s1 : InfState}
    (hinv : IInv env start s)
    (h : iStep strat env showExp start goal s = StepOut.next s1) :
    IInv env start s1 ∧ s1.steps = s.steps + 1 := by
  rcases iStep_cases strat env showExp start goal s with
    ⟨_, heq⟩ | ⟨e, rest, hext, hgoal, heq⟩ | ⟨e, rest, hext, hgoal, heq⟩
  · rw [heq] at h
    cases h
  · rw [heq] at h
    cases h
  · rw [heq] at h
    cases h
    have hff := @iFold_foldfacts strat env goal start e.2.2 (env.graph e.2.2)
      (fun n hn => hn) (iExpand s e.2.2 rest, []) (iExpand_foldfacts hinv hext)
    have hsteps := iFold_steps strat env goal e.2.2 (env.graph e.2.2)
      (iExpand s e.2.2 rest, [])
    by_cases hshow : showExp
    · rw [if_pos hshow]
      refine ⟨iRecord_inv hff.1 e.2.2 _ _, ?_⟩
      show ((env.graph e.2.2).foldl (iProcessNeighbor strat env goal e.2.2)
        (iExpand s e.2.2 rest, [])).1.steps = s.steps + 1
      rw [hsteps]
      rfl
    · rw [if_neg hshow]
      refine ⟨hff.1, ?_⟩
      rw [hsteps]
      rfl

/-- `IInv` holds at the top of every informed loop iteration. -/
theorem iIter_inv {strat : InformedStrategy} {env : MazeEnvironment}
    {showExp : Bool} {start goal : Cell} :
    ∀ (n : Nat) (s s1 : InfState), IInv env start s →
    iIter strat env showExp start goal n s = some s1 → IInv env start s1 := by
  intro n
  induction n with
  | zero =>
    intro s s1 hinv h
    rw [iIter] at h
    cases h
    exact hinv
  | succ n ih =>
    intro s s1 hinv h
    rw [iIter] at h
    cases hstep : iStep strat env showExp start goal s with
    | done r =>
      rw [hstep] at h
      cases h
    | next s2 =>
      rw [hstep] at h
      exact ih s2 s1 (iStep_next_inv hinv hstep).1 h

/-- The `ParentMapOK` instance an `IInv` state carries over the closed set
(rank = expansion step). -/
theorem IInv.iParentMapOK {env : MazeEnvironment} {start : Cell} {s : InfState}
    (h : IInv env start s) :
    ParentMapOK env s.parent start s.closed_set
      (fun c => (dget s.node_expansion c).getD 0) where
  start_none := h.parent_start
  complete := h.closed_parent
  parent_dom := fun c p hp => (h.parent_props c p hp).2.2
  edge := fun c p hp => (h.parent_props c p hp).1
  rank_lt := by
    intro c p hc hp
    have hpc : p ∈ s.closed_set := (h.parent_props c p hp).2.2
    obtain ⟨ec, hec⟩ := Option.isSome_iff_exists.mp ((h.exp_dom c).mpr hc)
    obtain ⟨ep, hep⟩ := Option.isSome_iff_exists.mp ((h.exp_dom p).mpr hpc)
    rw [hec, hep]
    simpa using h.parent_rank c p ec ep hp hc hec hep

theorem iLoop_succ_done {strat : InformedStrategy} {env : MazeEnvironment}
    {showExp : Bool} {start goal : Cell} {s : InfState} {r : SearchResult}
    (h : iStep strat env showExp start goal s = StepOut.done r) (n : Nat) :
    iLoop strat env showExp start goal (Nat.succ n) s = r := by
  rw [iLoop, h]

theorem iLoop_succ_next {strat : InformedStrategy} {env : MazeEnvironment}
    {showExp : Bool} {start goal : Cell} {s s1 : InfState}
    (h : iStep strat env showExp start goal s = StepOut.next s1) (n : Nat) :
    iLoop strat env showExp start goal (Nat.succ n) s =
      iLoop strat env showExp start goal n s1 := by
  rw [iLoop, h]

/-- Result facts for the informed loop: step bound, final maps from an
invariant state, and path validity on success. -/
theorem iLoop_facts (strat : InformedStrategy) (env : MazeEnvironment)
    (showExp : Bool) (start goal : Cell) :
    ∀ (fuel : Nat) (s : InfState), IInv env start s →
    (iLoop strat env showExp start goal fuel s).steps ≤ s.steps + fuel ∧
    (∃ s1, IInv env start s1 ∧
      (iLoop strat env showExp start goal fuel s).node_discovery =
        s1.node_discovery ∧
      (iLoop strat env showExp start goal fuel s).node_expansion =
        s1.node_expansion) ∧
    ((iLoop strat env showExp start goal fuel s).success = true →
      ∃ p, (iLoop strat env showExp start goal fuel s).path = some p ∧
        p.head? = some start ∧ p.getLast? = some goal ∧ p.Nodup ∧
        List.Chain' (fun a b => b ∈ env.graph a) p) := by
  intro fuel
  induction fuel with
  | zero =>
    intro s hinv
    refine ⟨le_refl _, ⟨s, hinv, rfl, rfl⟩, ?_⟩
    intro hsucc
    rw [iLoop] at hsucc
    cases hsucc
  | succ n ih =>
    intro s hinv
    rcases iStep_cases strat env showExp start goal s with
      ⟨hext, heq⟩ | ⟨e, rest, hext, hgoal, heq⟩ | ⟨e, rest, hext, hgoal, heq⟩
    · rw [iLoop_succ_done heq n]
      refine ⟨by show s.steps ≤ s.steps + (n+1); omega, ⟨s, hinv, rfl, rfl⟩, ?_⟩
      intro hsucc
      cases hsucc
    · subst hgoal
      rw [iLoop_succ_done heq n]
      obtain ⟨hinv2, hgvis, _⟩ := iExpand_foldfacts hinv hext
      refine ⟨?_, ⟨iExpand s e.2.2 rest, hinv2, rfl, rfl⟩, ?_⟩
      · show s.steps + 1 ≤ s.steps + (n + 1)
        omega
      · intro _
        obtain ⟨p, hrec, hh, hl, hnd, hch⟩ := reconstruct_ok hinv2.iParentMapOK hgvis
        exact ⟨p, hrec, hh, hl, hnd, hch⟩
    · set s1 := (if showExp then
          iRecord start e.2.2 (iExpand s e.2.2 rest).frontier
            ((env.graph e.2.2).foldl (iProcessNeighbor strat env goal e.2.2)
              (iExpand s e.2.2 rest, [])).2
            ((env.graph e.2.2).foldl (iProcessNeighbor strat env goal e.2.2)
              (iExpand s e.2.2 rest, [])).1
         else
          ((env.graph e.2.2).foldl (iProcessNeighbor strat env goal e.2.2)
            (iExpand s e.2.2 rest, [])).1) with hs1
      have hnext : iStep strat env showExp start goal s = StepOut.next s1 := heq
      obtain ⟨hinv1, hsteps1⟩ := iStep_next_inv hinv hnext
      obtain ⟨hle, hstate, hsucc⟩ := ih s1 hinv1
      rw [iLoop_succ_next hnext n]
      refine ⟨?_, hstate, hsucc⟩
      rw [hsteps1] at hle
      omega

/-- A singleton frontier sorts to itself, so the informed loop must pop it. -/
theorem informed_extract_singleton (sort_le : AEntry → AEntry → Bool)
    (e : AEntry) : informed_extract sort_le [e] = some (e, []) := by
  rw [informed_extract]
  rfl

/-- With `max_steps = 1` the informed loop runs exactly one iteration. -/
theorem informed_limit_one (strat : InformedStrategy) (env : MazeEnvironment)
    (showExp : Bool) (start goal : Cell) :
    (informed_search strat env showExp start goal 1).steps = 1 ∧
    ((informed_search strat env showExp start goal 1).success = true ↔
      start = goal) := by
  set e0 : AEntry := (strat.calculate_f 0
    (env.calculate_manhattan_distance start goal), 0, start) with he0
  have hext : informed_extract strat.sort_le
      (iInit strat env start goal).frontier = some (e0, []) :=
    informed_extract_singleton strat.sort_le e0
  have hone : (1 : Nat) = Nat.succ 0 := rfl
  rw [informed_search, hone]
  rcases iStep_cases strat env showExp start goal (iInit strat env start goal) with
    ⟨hnone, _⟩ | ⟨e, rest, hext2, hgoal, heq⟩ | ⟨e, rest, hext2, hgoal, heq⟩
  · rw [hext] at hnone
    cases hnone
  · rw [hext] at hext2
    obtain ⟨rfl, rfl⟩ : e = e0 ∧ rest = [] := by
      cases hext2
      exact ⟨rfl, rfl⟩
    rw [iLoop_succ_done heq 0]
    have hstart_goal : start = goal := hgoal
    exact ⟨rfl, by simp [iSuccessResult, hstart_goal]⟩
  · rw [hext] at hext2
    obtain ⟨rfl, rfl⟩ : e = e0 ∧ rest = [] := by
      cases hext2
      exact ⟨rfl, rfl⟩
    have hne : ¬ (start = goal) := hgoal
    rw [iLoop_succ_next heq 0, iLoop]
    constructor
    · show (iFailureResult _).steps = 1
      have hfold := iFold_steps strat env goal e0.2.2 (env.graph e0.2.2)
        (iExpand (iInit strat env start goal) e0.2.2 [], [])
      by_cases hshow : showExp
      · rw [if_pos hshow]
        show ((env.graph e0.2.2).foldl (iProcessNeighbor strat env goal e0.2.2)
          (iExpand (iInit strat env start goal) e0.2.2 [], [])).1.steps = 1
        rw [hfold]
        rfl
      · rw [if_neg hshow]
        show ((env.graph e0.2.2).foldl (iProcessNeighbor strat env goal e0.2.2)
          (iExpand (iInit strat env start goal) e0.2.2 [], [])).1.steps = 1
        rw [hfold]
        rfl
    · show false = true ↔ start = goal
      simp [hne]

/-! ## A* extraction order (for C6) -/

theorem astar_sort_le_total (a b : AEntry) :
    AStarSearch.sort_key_le a b = true ∨ AStarSearch.sort_key_le b a = true := by
  simp only [AStarSearch.sort_key_le, Bool.or_eq_true, Bool.and_eq_true,
    decide_eq_true_eq]
  omega

theorem astar_sort_le_trans {a b c : AEntry}
    (h1 : AStarSearch.sort_key_le a b = true)
    (h2 : AStarSearch.sort_key_le b c = true) :
    AStarSearch.sort_key_le a c = true := by
  simp only [AStarSearch.sort_key_le, Bool.or_eq_true, Bool.and_eq_true,
    decide_eq_true_eq] at h1 h2 ⊢
  omega

/-- The entry the A* loop pops is a member of the frontier with minimum
f value, and among minimum-f entries it has maximal g value; the rest of
the frontier is kept (as a permutation). -/
theorem astar_extract_min (frontier : List AEntry) (hne : frontier ≠ []) :
    ∃ e rest, informed_extract AStarSearch.sort_key_le frontier = some (e, rest) ∧
      e ∈ frontier ∧ frontier.Perm (e :: rest) ∧
      (∀ e1 ∈ frontier, e.1 ≤ e1.1) ∧
      (∀ e1 ∈ frontier, e1.1 = e.1 → e1.2.1 ≤ e.2.1) := by
  haveI : IsTotal AEntry (fun a b => AStarSearch.sort_key_le a b = true) :=
    ⟨astar_sort_le_total⟩
  haveI : IsTrans AEntry (fun a b => AStarSearch.sort_key_le a b = true) :=
    ⟨fun a b c => astar_sort_le_trans⟩
  have hsorted := List.sorted_insertionSort
    (fun a b => AStarSearch.sort_key_le a b = true) frontier
  have hperm := List.perm_insertionSort
    (fun a b => AStarSearch.sort_key_le a b = true) frontier
  cases hs : List.insertionSort
      (fun a b => AStarSearch.sort_key_le a b = true) frontier with
  | nil =>
    rw [hs] at hperm
    exact absurd hperm.symm.eq_nil hne
  | cons e rest =>
    rw [hs] at hsorted hperm
    have hext : informed_extract AStarSearch.sort_key_le frontier =
        some (e, rest) := by
      rw [informed_extract, hs]
    have hmin : ∀ e1 ∈ rest, AStarSearch.sort_key_le e e1 = true :=
      List.rel_of_sorted_cons hsorted
    have hmem_iff : ∀ e1, e1 ∈ frontier ↔ e1 = e ∨ e1 ∈ rest := by
      intro e1
      rw [← List.mem_cons]
      exact hperm.mem_iff.symm
    refine ⟨e, rest, hext, (hmem_iff e).mpr (Or.inl rfl), hperm.symm, ?_, ?_⟩
    · intro e1 he1
      rcases (hmem_iff e1).mp he1 with rfl | h1
      · exact le_refl _
      · have := hmin e1 h1
        simp only [AStarSearch.sort_key_le, Bool.or_eq_true, Bool.and_eq_true,
          decide_eq_true_eq] at this
        omega
    · intro e1 he1 hfe
      rcases (hmem_iff e1).mp he1 with rfl | h1
      · exact le_refl _
      · have := hmin e1 h1
        simp only [AStarSearch.sort_key_le, Bool.or_eq_true, Bool.and_eq_true,
          decide_eq_true_eq] at this
        omega

/-! ## `SearchAlgorithmBase.run` and `SearchResult.__str__` -/

/-- The message printed by `run`'s `except` branch:
`print(f"Error in {self.name}: {str(e)}")`. -/
def errMsg (name e : String) : String := "Error in " ++ name ++ ": " ++ e

/-- `SearchAlgorithmBase.run(start, goal)`.  The strategy's `search` is a
function that either returns a result or raises (`Except.error`); `t0`/`t1`
are the two `time.time()` readings (wall-clock input, modelled as integers).
The second component is the log: what `run` prints.  On an exception `run`
returns `SearchResult(success=False)` — every field at its dataclass
default — and logs the error; either way it stamps `execution_time`. -/
def SearchAlgorithmBase.run (name : String)
    (search : Cell → Cell → Except String SearchResult)
    (env : MazeEnvironment) (start? goal? : Option Cell)
    (t0 t1 : Int) : SearchResult × List String :=
  let start := start?.getD env.start
  let goal := goal?.getD env.end_
  match search start goal with
  | Except.ok r => ({ r with execution_time := t1 - t0 }, [])
  | Except.error e =>
    ({ ({} : SearchResult) with execution_time := t1 - t0 }, [errMsg name e])

def zeroDivMsg : String := "ZeroDivisionError: division by zero"

def noneLenMsg : String := "TypeError: object of type NoneType has no len()"

/-- Python `/`: raises `ZeroDivisionError` on a zero divisor. -/
def pydiv (a b : Rat) : Except String Rat :=
  if b = 0 then Except.error zeroDivMsg else Except.ok (a / b)

theorem pydiv_zero (a : Rat) : pydiv a 0 = Except.error zeroDivMsg := by
  rw [pydiv, if_pos rfl]

def nl : String := "\n"

/-- `SearchResult._calculate_avg_branching_factor`. -/
def SearchResult.calculate_avg_branching_factor (r : SearchResult) : Rat :=
  if r.node_expansion = [] ∨ r.node_expansion.length ≤ 1 then 0
  else
    let discovered_count : Rat := (r.node_discovery.length : Rat) - 1
    let expanded_count : Rat := (r.node_expansion.length : Rat)
    if 0 < r.node_expansion.length then discovered_count / expanded_count else 0

/-- `SearchResult._format_success_output`: the fallible operations (the
`len` of a possibly-`None` path, and the divisions) in Python evaluation
order, each propagating the first raised error; the returned string
carries the same computed quantities. -/
def SearchResult.format_success_output (r : SearchResult) :
    Except String String :=
  let avg_branching := r.calculate_avg_branching_factor
  match r.path with
  | none => Except.error noneLenMsg
  | some p =>
    match pydiv (r.visited.length : Rat) (r.steps : Rat) with
    | Except.error e => Except.error e
    | Except.ok nodesPerStep =>
      match pydiv (p.length : Rat) (r.visited.length : Rat) with
      | Except.error e => Except.error e
      | Except.ok efficiency =>
        match pydiv (r.execution_time : Rat) (r.steps : Rat) with
        | Except.error e => Except.error e
        | Except.ok timePerStep =>
          Except.ok (String.intercalate nl
            ["Search succeeded in " ++ toString r.steps ++ " steps (" ++
                toString r.execution_time ++ "s)",
              "Path length: " ++ toString p.length ++ " nodes",
              "Visited nodes: " ++ toString r.visited.length ++ " nodes (" ++
                toString nodesPerStep ++ " nodes/step)",
              "Efficiency: " ++ toString (efficiency * 100) ++
                "% (path nodes / visited nodes)",
              "Average branching factor: " ++ toString avg_branching ++
                " neighbors/node",
              "Average time per step: " ++ toString (timePerStep * 1000) ++
                " ms"])

/-- `SearchResult._format_failure_output`, fallible operations in Python
evaluation order: `len(self.visited) / self.steps` is evaluated first and
divides by `steps` with no zero guard. -/
def SearchResult.format_failure_output (r : SearchResult) :
    Except String String :=
  let avg_branching := r.calculate_avg_branching_factor
  match pydiv (r.visited.length : Rat) (r.steps : Rat) with
  | Except.error e => Except.error e
  | Except.ok nodesPerStep =>
    match pydiv (r.execution_time : Rat) (r.steps : Rat) with
    | Except.error e => Except.error e
    | Except.ok timePerStep =>
      Except.ok (String.intercalate nl
        ["Search failed after " ++ toString r.steps ++ " steps (" ++
            toString r.execution_time ++ "s)",
          "Visited nodes: " ++ toString r.visited.length ++ " nodes (" ++
            toString nodesPerStep ++ " nodes/step)",
          "Average branching factor: " ++ toString avg_branching ++
            " neighbors/node",
          "Average time per step: " ++ toString (timePerStep * 1000) ++ " ms",
          "Possible reasons for failure:",
          "   - No valid path exists between start and goal",
          "   - Search exceeded maximum step limit (" ++ toString r.steps ++
            " steps)",
          "   - Maze structure prevents reaching the goal"])

/-- `SearchResult.__str__`: `Except.error` models the formatting raising
instead of returning a string. -/
def SearchResult.str (r : SearchResult) : Except String String :=
  if r.success = true then r.format_success_output else r.format_failure_output

/-- Whether an `Except` computation failed. -/
def exceptIsError {ε α : Type} : Except ε α → Bool
  | Except.error _ => true
  | Except.ok _ => false

/-! ## Concrete environment used by the witnesses -/

/-- A two-cell environment: `(0,0) ↔ (0,1)`. -/
def envTwoCells : MazeEnvironment where
  graph := fun c =>
    if c = ((0 : Int), (0 : Int)) then [((0 : Int), (1 : Int))]
    else if c = ((0 : Int), (1 : Int)) then [((0 : Int), (0 : Int))] else []
  start := ((0 : Int), (0 : Int))
  end_ := ((0 : Int), (1 : Int))

def cellA : Cell := ((0 : Int), (0 : Int))

def cellB : Cell := ((0 : Int), (1 : Int))

/-! ## The claims -/

/-- C1: for every search that returns a result with `success = true`, the
returned path satisfies `path[0] == start`, `path[-1] == goal`, every
consecutive pair of cells in the path are neighbors in the environment's
graph, and no cell occurs twice in the path (the parent map walked by
reconstruction is acyclic and rooted at `start`).  Stated for the shared
uninformed loop (BFS and DFS) and for the shared informed loop (Greedy and
A*), over every environment, start, goal and step limit. -/
theorem claim_C1_path_validity :
    (∀ (us : UninformedStrategy) (env : MazeEnvironment) (showExp : Bool)
      (start goal : Cell) (max_steps : Nat),
      (uninformed_search us env showExp start goal max_steps).success = true →
      ∃ p, (uninformed_search us env showExp start goal max_steps).path = some p ∧
        p.head? = some start ∧ p.getLast? = some goal ∧
        List.Chain' (fun a b => b ∈ env.graph a) p ∧ p.Nodup) ∧
    (∀ (strat : InformedStrategy) (env : MazeEnvironment) (showExp : Bool)
      (start goal : Cell) (max_steps : Nat),
      (informed_search strat env showExp start goal max_steps).success = true →
      ∃ p, (informed_search strat env showExp start goal max_steps).path = some p ∧
        p.head? = some start ∧ p.getLast? = some goal ∧
        List.Chain' (fun a b => b ∈ env.graph a) p ∧ p.Nodup) := by
  constructor
  · intro us env showExp start goal max_steps hsucc
    obtain ⟨_, _, hpath⟩ :=
      uLoop_facts us env showExp start goal max_steps (uInit start)
        (uInit_inv env start)
    obtain ⟨p, h1, h2, h3, h4, h5⟩ := hpath hsucc
    exact ⟨p, h1, h2, h3, h5, h4⟩
  · intro strat env showExp start goal max_steps hsucc
    obtain ⟨_, _, hpath⟩ :=
      iLoop_facts strat env showExp start goal max_steps
        (iInit strat env start goal) (iInit_inv strat env start goal)
    obtain ⟨p, h1, h2, h3, h4, h5⟩ := hpath hsucc
    exact ⟨p, h1, h2, h3, h5, h4⟩

theorem claim_C1_path_validity_witness :
    ((BreadthFirstSearch.search envTwoCells false cellA cellB 5).success = true ∧
      ∃ p, (BreadthFirstSearch.search envTwoCells false cellA cellB 5).path =
          some p ∧
        p.head? = some cellA ∧ p.getLast? = some cellB ∧
        List.Chain' (fun a b => b ∈ envTwoCells.graph a) p ∧ p.Nodup) ∧
    ((AStarSearch.search envTwoCells false cellA cellB 5).success = true ∧
      ∃ p, (AStarSearch.search envTwoCells false cellA cellB 5).path = some p ∧
        p.head? = some cellA ∧ p.getLast? = some cellB ∧
        List.Chain' (fun a b => b ∈ envTwoCells.graph a) p ∧ p.Nodup) :=
  ⟨⟨by decide, claim_C1_path_validity.1 bfsStrategy envTwoCells false cellA
      cellB 5 (by decide)⟩,
   ⟨by decide, claim_C1_path_validity.2 aStarStrategy envTwoCells false cellA
      cellB 5 (by decide)⟩⟩

/-- C3: for every strategy and every configured step limit `L`, the `steps`
field of the returned `SearchResult` never exceeds `L`; with step limit 1,
every strategy returns after exactly 1 step, with `success = true` iff
`start == goal`. -/
theorem claim_C3_step_limit :
    (∀ (us : UninformedStrategy) (env : MazeEnvironment) (showExp : Bool)
      (start goal : Cell) (max_steps : Nat),
      (uninformed_search us env showExp start goal max_steps).steps ≤ max_steps) ∧
    (∀ (strat : InformedStrategy) (env : MazeEnvironment) (showExp : Bool)
      (start goal : Cell) (max_steps : Nat),
      (informed_search strat env showExp start goal max_steps).steps ≤ max_steps) ∧
    (∀ (us : UninformedStrategy) (env : MazeEnvironment) (showExp : Bool)
      (start goal : Cell),
      (uninformed_search us env showExp start goal 1).steps = 1 ∧
      ((uninformed_search us env showExp start goal 1).success = true ↔
        start = goal)) ∧
    (∀ (strat : InformedStrategy) (env : MazeEnvironment) (showExp : Bool)
      (start goal : Cell),
      (informed_search strat env showExp start goal 1).steps = 1 ∧
      ((informed_search strat env showExp start goal 1).success = true ↔
        start = goal)) := by
  refine ⟨?_, ?_, ?_, ?_⟩
  · intro us env showExp start goal max_steps
    have h := (uLoop_facts us env showExp start goal max_steps (uInit start)
      (uInit_inv env start)).1
    rw [show (uInit start).steps = 0 from rfl] at h
    simpa [uninformed_search] using h
  · intro strat env showExp start goal max_steps
    have h := (iLoop_facts strat env showExp start goal max_steps
      (iInit strat env start goal) (iInit_inv strat env start goal)).1
    rw [show (iInit strat env start goal).steps = 0 from rfl] at h
    simpa [informed_search] using h
  · exact fun us env showExp start goal =>
      uninformed_limit_one us env showExp start goal
  · exact fun strat env showExp start goal =>
      informed_limit_one strat env showExp start goal

/-- C5: in the shared uninformed loop, a cell is added to the visited set at
the moment it is first discovered (enqueued), not when it is expanded —
observably, at the top of every loop iteration every frontier cell is
already visited; as a consequence, over the whole search every cell is
enqueued into the frontier at most once and every cell's parent pointer is
set at most once (the ghost `enqueue_log` / `parent_log`, which record every
enqueue and every parent assignment including the initial ones, stay
duplicate-free). -/
theorem claim_C5_discovery_marking :
    ∀ (us : UninformedStrategy) (env : MazeEnvironment) (showExp : Bool)
      (start goal : Cell) (n : Nat) (st : UState),
    uIter us env showExp start goal n (uInit start) = some st →
    st.frontier ⊆ st.visited ∧ st.enqueue_log.Nodup ∧ st.parent_log.Nodup := by
  intro us env showExp start goal n st hiter
  have hinv := uIter_inv n (uInit start) st (uInit_inv env start) hiter
  exact ⟨hinv.frontier_visited, hinv.enqueue_nodup, hinv.parentlog_nodup⟩

theorem claim_C5_discovery_marking_witness :
    (uIter bfsStrategy envTwoCells false cellA cellB 1 (uInit cellA) =
      some ((uIter bfsStrategy envTwoCells false cellA cellB 1
        (uInit cellA)).getD (uInit cellA))) ∧
    (((uIter bfsStrategy envTwoCells false cellA cellB 1
        (uInit cellA)).getD (uInit cellA)).frontier ⊆
      ((uIter bfsStrategy envTwoCells false cellA cellB 1
        (uInit cellA)).getD (uInit cellA)).visited ∧
      ((uIter bfsStrategy envTwoCells false cellA cellB 1
        (uInit cellA)).getD (uInit cellA)).enqueue_log.Nodup ∧
      ((uIter bfsStrategy envTwoCells false cellA cellB 1
        (uInit cellA)).getD (uInit cellA)).parent_log.Nodup) :=
  ⟨rfl, claim_C5_discovery_marking bfsStrategy envTwoCells false cellA cellB 1
    _ rfl⟩

/-- C6: A* extraction (`frontier.sort(key=lambda x: (x[0], -x[1]))` followed
by `pop(0)`) removes a frontier entry with minimum f value and, among
entries of equal minimum f, one with the highest g value; the rest of the
frontier is kept. -/
theorem claim_C6_astar_extraction :
    ∀ (frontier : List AEntry), frontier ≠ [] →
    ∃ e rest, informed_extract aStarStrategy.sort_le frontier = some (e, rest) ∧
      e ∈ frontier ∧ frontier.Perm (e :: rest) ∧
      (∀ e1 ∈ frontier, e.1 ≤ e1.1) ∧
      (∀ e1 ∈ frontier, e1.1 = e.1 → e1.2.1 ≤ e.2.1) :=
  astar_extract_min

def c6Frontier : List AEntry :=
  [((5 : Int), (1 : Int), ((0 : Int), (0 : Int))),
   ((3 : Int), (2 : Int), ((1 : Int), (1 : Int))),
   ((3 : Int), (7 : Int), ((2 : Int), (2 : Int))),
   ((4 : Int), (9 : Int), ((3 : Int), (3 : Int)))]

theorem claim_C6_astar_extraction_witness :
    c6Frontier ≠ [] ∧
    (∃ e rest, informed_extract aStarStrategy.sort_le c6Frontier =
        some (e, rest) ∧
      e ∈ c6Frontier ∧ c6Frontier.Perm (e :: rest) ∧
      (∀ e1 ∈ c6Frontier, e.1 ≤ e1.1) ∧
      (∀ e1 ∈ c6Frontier, e1.1 = e.1 → e1.2.1 ≤ e.2.1)) :=
  ⟨by decide, claim_C6_astar_extraction c6Frontier (by decide)⟩

/-- C7: for every strategy and every search, on the returned result
`node_discovery[start] == 0`, every expanded cell has
`node_discovery[c] <= node_expansion[c]` (so the expansion domain is
contained in the discovery domain), and the expansion step indices are
strictly increasing in the dict's insertion order; moreover, over the whole
search neither map ever reassigns a value once set (the ghost write logs
`discovery_log` / `expansion_log` stay duplicate-free at the top of every
loop iteration). -/
theorem claim_C7_discovery_expansion :
    (∀ (us : UninformedStrategy) (env : MazeEnvironment) (showExp : Bool)
      (start goal : Cell) (max_steps : Nat),
      dget (uninformed_search us env showExp start goal max_steps).node_discovery
        start = some 0 ∧
      (∀ c e, dget (uninformed_search us env showExp start goal
          max_steps).node_expansion c = some e →
        ∃ d, dget (uninformed_search us env showExp start goal
          max_steps).node_discovery c = some d ∧ d ≤ e) ∧
      ((uninformed_search us env showExp start goal
        max_steps).node_expansion.map Prod.snd).Pairwise (· < ·)) ∧
    (∀ (strat : InformedStrategy) (env : MazeEnvironment) (showExp : Bool)
      (start goal : Cell) (max_steps : Nat),
      dget (informed_search strat env showExp start goal
        max_steps).node_discovery start = some 0 ∧
      (∀ c e, dget (informed_search strat env showExp start goal
          max_steps).node_expansion c = some e →
        ∃ d, dget (informed_search strat env showExp start goal
          max_steps).node_discovery c = some d ∧ d ≤ e) ∧
      ((informed_search strat env showExp start goal
        max_steps).node_expansion.map Prod.snd).Pairwise (· < ·)) ∧
    (∀ (us : UninformedStrategy) (env : MazeEnvironment) (showExp : Bool)
      (start goal : Cell) (n : Nat) (st : UState),
      uIter us env showExp start goal n (uInit start) = some st →
      st.discovery_log.Nodup ∧ st.expansion_log.Nodup) ∧
    (∀ (strat : InformedStrategy) (env : MazeEnvironment) (showExp : Bool)
      (start goal : Cell) (n : Nat) (st : InfState),
      iIter strat env showExp start goal n (iInit strat env start goal) =
        some st →
      st.discovery_log.Nodup ∧ st.expansion_log.Nodup) := by
  refine ⟨?_, ?_, ?_, ?_⟩
  · intro us env showExp start goal max_steps
    obtain ⟨_, ⟨s1, hinv1, hdisc, hexp⟩, _⟩ :=
      uLoop_facts us env showExp start goal max_steps (uInit start)
        (uInit_inv env start)
    rw [show uninformed_search us env showExp start goal max_steps =
      uLoop us env showExp start goal max_steps (uInit start) from rfl,
      hdisc, hexp]
    refine ⟨hinv1.disc_start, ?_, hinv1.exp_pairwise⟩
    intro c e he
    obtain ⟨d, hd, hlt⟩ := hinv1.disc_lt_exp c e he
    exact ⟨d, hd, le_of_lt hlt⟩
  · intro strat env showExp start goal max_steps
    obtain ⟨_, ⟨s1, hinv1, hdisc, hexp⟩, _⟩ :=
      iLoop_facts strat env showExp start goal max_steps
        (iInit strat env start goal) (iInit_inv strat env start goal)
    rw [show informed_search strat env showExp start goal max_steps =
      iLoop strat env showExp start goal max_steps (iInit strat env start goal)
      from rfl, hdisc, hexp]
    refine ⟨hinv1.disc_start, ?_, hinv1.exp_pairwise⟩
    intro c e he
    obtain ⟨d, hd, hlt⟩ := hinv1.disc_lt_exp c e he
    exact ⟨d, hd, le_of_lt hlt⟩
  · intro us env showExp start goal n st hiter
    have hinv := uIter_inv n (uInit start) st (uInit_inv env start) hiter
    exact ⟨hinv.disclog_nodup, hinv.explog_nodup⟩
  · intro strat env showExp start goal n st hiter
    have hinv := iIter_inv n (iInit strat env start goal) st
      (iInit_inv strat env start goal) hiter
    exact ⟨hinv.disclog_nodup, hinv.explog_nodup⟩

theorem claim_C7_discovery_expansion_witness :
    (dget (BreadthFirstSearch.search envTwoCells false cellA cellB
        5).node_expansion cellB = some 2 ∧
      (∃ d, dget (BreadthFirstSearch.search envTwoCells false cellA cellB
        5).node_discovery cellB = some d ∧ d ≤ 2)) ∧
    (iIter aStarStrategy envTwoCells false cellA cellB 1
        (iInit aStarStrategy envTwoCells cellA cellB) =
      some ((iIter aStarStrategy envTwoCells false cellA cellB 1
        (iInit aStarStrategy envTwoCells cellA cellB)).getD
          (iInit aStarStrategy envTwoCells cellA cellB)) ∧
      ((iIter aStarStrategy envTwoCells false cellA cellB 1
        (iInit aStarStrategy envTwoCells cellA cellB)).getD
          (iInit aStarStrategy envTwoCells cellA cellB)).discovery_log.Nodup ∧
      ((iIter aStarStrategy envTwoCells false cellA cellB 1
        (iInit aStarStrategy envTwoCells cellA cellB)).getD
          (iInit aStarStrategy envTwoCells cellA cellB)).expansion_log.Nodup) :=
  ⟨⟨by decide, (claim_C7_discovery_expansion.1 bfsStrategy envTwoCells false
      cellA cellB 5).2.1 cellB 2 (by decide)⟩,
   rfl,
   (claim_C7_discovery_expansion.2.2.2 aStarStrategy envTwoCells false cellA
      cellB 1 _ rfl)⟩

/-- C10: in both A* and Greedy best-first search (stated for every informed
strategy), at the top of every loop iteration the frontier list and
`frontier_dict` are synchronized: a cell appears among the frontier entries'
nodes exactly once iff it is a key of `frontier_dict` (the node list is
duplicate-free and node membership coincides with key membership), so every
pop can delete its cell from `frontier_dict` without error. -/
theorem claim_C10_frontier_dict_sync :
    ∀ (strat : InformedStrategy) (env : MazeEnvironment) (showExp : Bool)
      (start goal : Cell) (n : Nat) (st : InfState),
    iIter strat env showExp start goal n (iInit strat env start goal) =
      some st →
    (st.frontier.map entryNode).Nodup ∧
    (∀ c, c ∈ st.frontier.map entryNode ↔
      (dget st.frontier_dict c).isSome = true) ∧
    (∀ e ∈ st.frontier, (dget st.frontier_dict e.2.2).isSome = true) := by
  intro strat env showExp start goal n st hiter
  have hinv := iIter_inv n (iInit strat env start goal) st
    (iInit_inv strat env start goal) hiter
  refine ⟨hinv.fr_nodes_nodup, hinv.fr_dict_iff, ?_⟩
  intro e he
  exact (hinv.fr_dict_iff e.2.2).mp (List.mem_map.mpr ⟨e, he, rfl⟩)

theorem claim_C10_frontier_dict_sync_witness :
    (iIter greedyStrategy envTwoCells false cellA cellB 1
        (iInit greedyStrategy envTwoCells cellA cellB) =
      some ((iIter greedyStrategy envTwoCells false cellA cellB 1
        (iInit greedyStrategy envTwoCells cellA cellB)).getD
          (iInit greedyStrategy envTwoCells cellA cellB))) ∧
    (((iIter greedyStrategy envTwoCells false cellA cellB 1
        (iInit greedyStrategy envTwoCells cellA cellB)).getD
          (iInit greedyStrategy envTwoCells cellA cellB)).frontier.map
        entryNode).Nodup ∧
    (∀ c, c ∈ ((iIter greedyStrategy envTwoCells false cellA cellB 1
        (iInit greedyStrategy envTwoCells cellA cellB)).getD
          (iInit greedyStrategy envTwoCells cellA cellB)).frontier.map
        entryNode ↔
      (dget ((iIter greedyStrategy envTwoCells false cellA cellB 1
        (iInit greedyStrategy envTwoCells cellA cellB)).getD
          (iInit greedyStrategy envTwoCells cellA cellB)).frontier_dict
        c).isSome = true) ∧
    (∀ e ∈ ((iIter greedyStrategy envTwoCells false cellA cellB 1
        (iInit greedyStrategy envTwoCells cellA cellB)).getD
          (iInit greedyStrategy envTwoCells cellA cellB)).frontier,
      (dget ((iIter greedyStrategy envTwoCells false cellA cellB 1
        (iInit greedyStrategy envTwoCells cellA cellB)).getD
          (iInit greedyStrategy envTwoCells cellA cellB)).frontier_dict
        e.2.2).isSome = true) :=
  ⟨rfl, by
    have h := claim_C10_frontier_dict_sync greedyStrategy envTwoCells false
      cellA cellB 1 _ rfl
    exact ⟨h.1, h.2.1, h.2.2⟩⟩

/-- C2: in the A* neighbor-processing loop, for a neighbor not in the closed
set, the update (overwriting parent, g, f, h and the frontier entry) fires
iff the neighbor is not currently in the frontier OR the newly computed g
(`g_value[current] +` step cost) is strictly less than the previously
recorded g for that neighbor; a neighbor already in the closed set is never
updated or re-inserted into the frontier.  The first conjunct is the
`_should_update_node` predicate itself (under the invariant, proved above,
that every `frontier_dict` key has a recorded g); the second says a closed
neighbor leaves the state untouched; the third names everything a firing
update overwrites; the fourth says a non-firing update changes nothing. -/
theorem claim_C2_astar_update_rule :
    (∀ (neighbor : Cell) (tentative_g : Int)
      (g_value frontier_dict : List (Cell × Int)),
      (∀ c, (dget frontier_dict c).isSome = true →
        (dget g_value c).isSome = true) →
      (AStarSearch.should_update_node neighbor tentative_g g_value
          frontier_dict = true ↔
        (dget frontier_dict neighbor = none ∨
          ∃ gN, dget g_value neighbor = some gN ∧ tentative_g < gN))) ∧
    (∀ (env : MazeEnvironment) (goal current : Cell)
      (acc : InfState × List AEntry) (neighbor : Cell),
      neighbor ∈ acc.1.closed_set →
      iProcessNeighbor aStarStrategy env goal current acc neighbor = acc) ∧
    (∀ (env : MazeEnvironment) (goal current : Cell) (s : InfState)
      (added : List AEntry) (neighbor : Cell),
      neighbor ∉ s.closed_set →
      AStarSearch.should_update_node neighbor
        ((dget s.g_value current).getD 0 + env.get_step_cost current neighbor)
        s.g_value s.frontier_dict = true →
      (dget (iProcessNeighbor aStarStrategy env goal current (s, added)
          neighbor).1.parent neighbor = some current ∧
       dget (iProcessNeighbor aStarStrategy env goal current (s, added)
          neighbor).1.g_value neighbor =
        some ((dget s.g_value current).getD 0 +
          env.get_step_cost current neighbor) ∧
       dget (iProcessNeighbor aStarStrategy env goal current (s, added)
          neighbor).1.node_h_value neighbor =
        some (env.calculate_manhattan_distance neighbor goal) ∧
       dget (iProcessNeighbor aStarStrategy env goal current (s, added)
          neighbor).1.node_g_value neighbor =
        some ((dget s.g_value current).getD 0 +
          env.get_step_cost current neighbor) ∧
       dget (iProcessNeighbor aStarStrategy env goal current (s, added)
          neighbor).1.node_f_value neighbor =
        some ((dget s.g_value current).getD 0 +
          env.get_step_cost current neighbor +
          env.calculate_manhattan_distance neighbor goal) ∧
       dget (iProcessNeighbor aStarStrategy env goal current (s, added)
          neighbor).1.frontier_dict neighbor =
        some ((dget s.g_value current).getD 0 +
          env.get_step_cost current neighbor +
          env.calculate_manhattan_distance neighbor goal) ∧
       ((dget s.g_value current).getD 0 + env.get_step_cost current neighbor +
          env.calculate_manhattan_distance neighbor goal,
        (dget s.g_value current).getD 0 + env.get_step_cost current neighbor,
        neighbor) ∈
        (iProcessNeighbor aStarStrategy env goal current (s, added)
          neighbor).1.frontier)) ∧
    (∀ (env : MazeEnvironment) (goal current : Cell) (s : InfState)
      (added : List AEntry) (neighbor : Cell),
      neighbor ∉ s.closed_set →
      AStarSearch.should_update_node neighbor
        ((dget s.g_value current).getD 0 + env.get_step_cost current neighbor)
        s.g_value s.frontier_dict = false →
      iProcessNeighbor aStarStrategy env goal current (s, added) neighbor =
        (s, added)) := by
  refine ⟨?_, ?_, ?_, ?_⟩
  · intro neighbor tg g fd hsub
    rw [AStarSearch.should_update_node]
    cases hfd : dget fd neighbor with
    | none =>
      simp only [hfd, Option.isSome_none, Bool.not_false, Bool.true_or,
        true_iff]
      exact Or.inl trivial
    | some fv =>
      have hgs : (dget g neighbor).isSome = true := hsub neighbor (by rw [hfd]; rfl)
      obtain ⟨gN, hgN⟩ := Option.isSome_iff_exists.mp hgs
      simp only [hfd, Option.isSome_some, Bool.not_true, Bool.false_or, hgN]
      simp only [decide_eq_true_eq]
      constructor
      · intro hlt
        exact Or.inr ⟨gN, rfl, hlt⟩
      · rintro (h1 | ⟨gN2, hgN2, hlt⟩)
        · cases h1
        · cases hgN2
          exact hlt
  · intro env goal current acc neighbor hmem
    simp only [iProcessNeighbor, if_pos hmem]
  · intro env goal current s added neighbor hnmem hupd
    have hcond : aStarStrategy.should_update_node neighbor
        ((dget s.g_value current).getD 0 + env.get_step_cost current neighbor)
        s.g_value s.frontier_dict = true := hupd
    have heq : (iProcessNeighbor aStarStrategy env goal current (s, added)
        neighbor).1 = iApplyUpdate aStarStrategy env goal current s neighbor
        ((dget s.g_value current).getD 0 + env.get_step_cost current neighbor) := by
      simp only [iProcessNeighbor, if_neg hnmem]
      rw [if_pos hcond]
    rw [heq]
    refine ⟨?_, ?_, ?_, ?_, ?_, ?_, ?_⟩
    · exact dget_dset_self _ _ _
    · exact dget_dset_self _ _ _
    · exact dget_dset_self _ _ _
    · exact dget_dset_self _ _ _
    · exact dget_dset_self _ _ _
    · exact dget_dset_self _ _ _
    · show _ ∈ (_ ++ [((dget s.g_value current).getD 0 +
        env.get_step_cost current neighbor +
        env.calculate_manhattan_distance neighbor goal,
        (dget s.g_value current).getD 0 + env.get_step_cost current neighbor,
        neighbor)] : List AEntry)
      exact List.mem_append.mpr (Or.inr (List.mem_singleton.mpr rfl))
  · intro env goal current s added neighbor hnmem hupd
    have hcond : aStarStrategy.should_update_node neighbor
        ((dget s.g_value current).getD 0 + env.get_step_cost current neighbor)
        s.g_value s.frontier_dict = false := hupd
    simp only [iProcessNeighbor, if_neg hnmem]
    rw [hcond]
    simp only [Bool.false_eq_true, if_false]

def c2_g_value : List (Cell × Int) := [(cellA, 5)]

def c2_frontier_dict : List (Cell × Int) := [(cellA, 7)]

/-- A state whose closed set already contains `cellB`. -/
def c2_closed_state : InfState :=
  { iInit aStarStrategy envTwoCells cellA cellB with closed_set := [cellB] }

/-- A state in which the update predicate is false for `cellB` (it is in the
frontier dict and the tentative g of 1 does not beat its recorded g of 0). -/
def c2_stale_state : InfState :=
  { iInit aStarStrategy envTwoCells cellA cellB with
      frontier_dict := [(cellB, 9)]
      g_value := [(cellA, 0), (cellB, 0)] }

theorem claim_C2_astar_update_rule_witness :
    ((AStarSearch.should_update_node cellA 3 c2_g_value c2_frontier_dict =
        true ↔
      (dget c2_frontier_dict cellA = none ∨
        ∃ gN, dget c2_g_value cellA = some gN ∧ 3 < gN))) ∧
    (cellB ∈ c2_closed_state.closed_set ∧
      iProcessNeighbor aStarStrategy envTwoCells cellB cellA
        (c2_closed_state, []) cellB = (c2_closed_state, [])) ∧
    (cellB ∉ (iInit aStarStrategy envTwoCells cellA cellB).closed_set ∧
      dget (iProcessNeighbor aStarStrategy envTwoCells cellB cellA
        (iInit aStarStrategy envTwoCells cellA cellB, []) cellB).1.parent
        cellB = some cellA) ∧
    (cellB ∉ c2_stale_state.closed_set ∧
      iProcessNeighbor aStarStrategy envTwoCells cellB cellA
        (c2_stale_state, []) cellB = (c2_stale_state, [])) :=
  ⟨claim_C2_astar_update_rule.1 cellA 3 c2_g_value c2_frontier_dict
      (by
        intro c hc
        have hm := mem_of_dget_isSome hc
        simp only [c2_frontier_dict, List.map_cons, List.map_nil,
          List.mem_singleton] at hm
        subst hm
        decide),
   ⟨by decide,
    claim_C2_astar_update_rule.2.1 envTwoCells cellB cellA
      (c2_closed_state, []) cellB (by decide)⟩,
   ⟨by decide,
    (claim_C2_astar_update_rule.2.2.1 envTwoCells cellB cellA
      (iInit aStarStrategy envTwoCells cellA cellB) [] cellB (by decide)
      (by decide)).1⟩,
   ⟨by decide,
    claim_C2_astar_update_rule.2.2.2 envTwoCells cellB cellA c2_stale_state
      [] cellB (by decide) (by decide)⟩⟩

def boomMsg : String := "boom"

/-- C4: if the strategy's `search` body raises any exception, `run()` does
not propagate it: it returns a `SearchResult` with `success = false` and
`steps = 0` (and empty path / visited / history fields), and the fault is
logged (the printed error message carries the strategy name and the
exception text) rather than silently discarded. -/
theorem claim_C4_run_error_handling :
    ∀ (name : String) (search : Cell → Cell → Except String SearchResult)
      (env : MazeEnvironment) (start? goal? : Option Cell) (t0 t1 : Int)
      (e : String),
    search (start?.getD env.start) (goal?.getD env.end_) = Except.error e →
    (SearchAlgorithmBase.run name search env start? goal? t0 t1).1.success =
      false ∧
    (SearchAlgorithmBase.run name search env start? goal? t0 t1).1.steps = 0 ∧
    (SearchAlgorithmBase.run name search env start? goal? t0 t1).1.path =
      none ∧
    (SearchAlgorithmBase.run name search env start? goal? t0 t1).1.visited =
      [] ∧
    (SearchAlgorithmBase.run name search env start? goal?
      t0 t1).1.exploration_history = [] ∧
    (SearchAlgorithmBase.run name search env start? goal? t0 t1).2 =
      [errMsg name e] := by
  intro name search env start? goal? t0 t1 e herr
  simp only [SearchAlgorithmBase.run, herr]
  refine ⟨?_, ?_, ?_, ?_, ?_, ?_⟩ <;> first
    | rfl
    | trivial

theorem claim_C4_run_error_handling_witness :
    ((fun (_ _ : Cell) => (Except.error boomMsg : Except String SearchResult))
      ((none : Option Cell).getD envTwoCells.start)
      ((none : Option Cell).getD envTwoCells.end_) =
      Except.error boomMsg) ∧
    ((SearchAlgorithmBase.run boomMsg
        (fun _ _ => Except.error boomMsg) envTwoCells none none 0 1).1.success =
      false ∧
     (SearchAlgorithmBase.run boomMsg
        (fun _ _ => Except.error boomMsg) envTwoCells none none 0 1).1.steps =
      0 ∧
     (SearchAlgorithmBase.run boomMsg
        (fun _ _ => Except.error boomMsg) envTwoCells none none 0 1).1.path =
      none ∧
     (SearchAlgorithmBase.run boomMsg
        (fun _ _ => Except.error boomMsg) envTwoCells none none 0 1).1.visited =
      [] ∧
     (SearchAlgorithmBase.run boomMsg
        (fun _ _ => Except.error boomMsg) envTwoCells none none
        0 1).1.exploration_history = [] ∧
     (SearchAlgorithmBase.run boomMsg
        (fun _ _ => Except.error boomMsg) envTwoCells none none 0 1).2 =
      [errMsg boomMsg boomMsg]) :=
  ⟨rfl, claim_C4_run_error_handling boomMsg (fun _ _ => Except.error boomMsg)
    envTwoCells none none 0 1 boomMsg rfl⟩

def bfsName : String := "BreadthFirstSearch"

/-- A concrete non-raising strategy search for the C8 counterexample. -/
def bfsOkSearch : Cell → Cell → Except String SearchResult :=
  fun s g => Except.ok (BreadthFirstSearch.search envTwoCells false s g 5)

/-- C8 counterexample: `run` stamps the wall-clock duration into the
returned `SearchResult`, so two runs of the same strategy on the same
Environment, start, goal and step limit do NOT produce identical
`SearchResult` values in every field: the `execution_time` field differs
between a run taking 1 time unit and one taking 2. -/
theorem claim_C8_counterexample :
    SearchAlgorithmBase.run bfsName bfsOkSearch envTwoCells none none 0 1 ≠
    SearchAlgorithmBase.run bfsName bfsOkSearch envTwoCells none none 0 2 := by
  intro h
  have h2 := congrArg (fun p => p.1.execution_time) h
  simp only [SearchAlgorithmBase.run, bfsOkSearch] at h2
  omega

/-- C8 (amended): for a fixed Environment, start, goal and step limit, two
runs of the same strategy produce `SearchResult`s identical in every field
except `execution_time` (which records that run's wall-clock time), and
identical logs: the search outcome does not depend on the timing inputs. -/
theorem claim_C8_determinism_amended :
    ∀ (name : String) (search : Cell → Cell → Except String SearchResult)
      (env : MazeEnvironment) (start? goal? : Option Cell)
      (t0 t1 t0' t1' : Int),
    (SearchAlgorithmBase.run name search env start? goal? t0 t1).1.path =
      (SearchAlgorithmBase.run name search env start? goal? t0' t1').1.path ∧
    (SearchAlgorithmBase.run name search env start? goal? t0 t1).1.visited =
      (SearchAlgorithmBase.run name search env start? goal? t0' t1').1.visited ∧
    (SearchAlgorithmBase.run name search env start? goal? t0 t1).1.success =
      (SearchAlgorithmBase.run name search env start? goal? t0' t1').1.success ∧
    (SearchAlgorithmBase.run name search env start? goal? t0 t1).1.steps =
      (SearchAlgorithmBase.run name search env start? goal? t0' t1').1.steps ∧
    (SearchAlgorithmBase.run name search env start? goal?
        t0 t1).1.exploration_history =
      (SearchAlgorithmBase.run name search env start? goal?
        t0' t1').1.exploration_history ∧
    (SearchAlgorithmBase.run name search env start? goal?
        t0 t1).1.node_discovery =
      (SearchAlgorithmBase.run name search env start? goal?
        t0' t1').1.node_discovery ∧
    (SearchAlgorithmBase.run name search env start? goal?
        t0 t1).1.node_expansion =
      (SearchAlgorithmBase.run name search env start? goal?
        t0' t1').1.node_expansion ∧
    (SearchAlgorithmBase.run name search env start? goal?
        t0 t1).1.node_h_value =
      (SearchAlgorithmBase.run name search env start? goal?
        t0' t1').1.node_h_value ∧
    (SearchAlgorithmBase.run name search env start? goal?
        t0 t1).1.node_g_value =
      (SearchAlgorithmBase.run name search env start? goal?
        t0' t1').1.node_g_value ∧
    (SearchAlgorithmBase.run name search env start? goal?
        t0 t1).1.node_f_value =
      (SearchAlgorithmBase.run name search env start? goal?
        t0' t1').1.node_f_value ∧
    (SearchAlgorithmBase.run name search env start? goal? t0 t1).2 =
      (SearchAlgorithmBase.run name search env start? goal? t0' t1').2 := by
  intro name search env start? goal? t0 t1 t0' t1'
  simp only [SearchAlgorithmBase.run]
  cases search (start?.getD env.start) (goal?.getD env.end_) with
  | ok r =>
    exact ⟨rfl, rfl, rfl, rfl, rfl, rfl, rfl, rfl, rfl, rfl, rfl⟩
  | error e =>
    exact ⟨rfl, rfl, rfl, rfl, rfl, rfl, rfl, rfl, rfl, rfl, rfl⟩

/-- C9: for every `SearchResult` whose `steps` field is 0 — in particular
the degraded `SearchResult(success=False)` produced when a strategy's
`search` raises — `str()` fails instead of returning a string, because both
formatters divide `len(visited)` and `execution_time` by `steps` with no
zero guard: formatting always raises, and on the failure branch (the one
every program-produced zero-step result takes) the error is precisely the
division by zero. -/
theorem claim_C9_str_zero_steps :
    ∀ r : SearchResult, r.steps = 0 →
    exceptIsError r.str = true ∧
    (r.success = false → r.str = Except.error zeroDivMsg) := by
  intro r hsteps
  have hq : ((r.steps : Rat)) = 0 := by
    rw [hsteps]
    simp
  by_cases hsucc : r.success = true
  · constructor
    · rw [SearchResult.str, if_pos hsucc, SearchResult.format_success_output]
      cases hpath : r.path with
      | none => rfl
      | some p =>
        rw [hq, pydiv_zero]
        rfl
    · intro hfalse
      rw [hsucc] at hfalse
      cases hfalse
  · have hsucc2 : r.success = false := by
      cases hb : r.success with
      | false => rfl
      | true => exact absurd hb hsucc
    have hfail : r.str = Except.error zeroDivMsg := by
      rw [SearchResult.str, if_neg (by rw [hsucc2]; simp),
        SearchResult.format_failure_output, hq, pydiv_zero]
    refine ⟨?_, fun _ => hfail⟩
    rw [hfail]
    rfl

theorem claim_C9_str_zero_steps_witness :
    (({} : SearchResult).steps = 0) ∧
    (exceptIsError ({} : SearchResult).str = true ∧
      (({} : SearchResult).success = false →
        ({} : SearchResult).str = Except.error zeroDivMsg)) :=
  ⟨rfl, claim_C9_str_zero_steps ({} : SearchResult) rfl⟩
